import Mathlib

/-!
Verification of the rsb-python distribution core against its specification.

The Python sources are embedded shallowly:

* `rsb/rsbspread/__init__.py`: `makeKey`, `Assembly`, `AssemblyPool`
  (fragment reassembly);
* `rsb/util.py`: `OrderedQueueDispatcherPool` (as a labelled transition
  system over explicit pool states);
* `rsb/__init__.py`: `Scope` parsing and printing, `MetaData`/`Event`
  equality, `Event.getId`, `Informer.publishEvent`.

Python dictionaries are modelled as association lists (first match wins,
as for a dict whose keys are unique); Python exceptions are modelled with
`Except`; opaque Python values (receivers, payload bytes, user data) are
modelled as naturals.
-/

set_option maxHeartbeats 1000000

namespace Rsb
/-! ### Association lists, modelling Python dictionaries -/

/-- Lookup in an association list: `d[k]` / `k in d` for a Python dict. -/
def lookupA {κ ν : Type} [DecidableEq κ] (k : κ) : List (κ × ν) → Option ν
  | [] => none
  | e :: rest => if e.1 = k then some e.2 else lookupA k rest

/-- Replace the value stored at `k` (first matching entry):
`d[k] = v` for a key that is already present. -/
def updateA {κ ν : Type} [DecidableEq κ] (k : κ) (v : ν) : List (κ × ν) → List (κ × ν)
  | [] => []
  | e :: rest => if e.1 = k then (k, v) :: rest else e :: updateA k v rest

/-- Remove the entry stored at `k` (first matching entry): `del d[k]`. -/
def removeA {κ ν : Type} [DecidableEq κ] (k : κ) : List (κ × ν) → List (κ × ν)
  | [] => []
  | e :: rest => if e.1 = k then rest else e :: removeA k rest

/-! ### `'%08x' % n`: lower-case hexadecimal, zero-padded to eight digits. -/

/-- Models the Python format expression `'%08x' % n` (used both in
`makeKey` and in `Event.getId`). `Nat.toDigits 16` yields lower-case
hexadecimal digits like CPython's `%x`. -/
def format08x (n : Nat) : List Char :=
  let ds := Nat.toDigits 16 n
  List.replicate (8 - ds.length) '0' ++ ds

/-! ### Fragments and notifications (`rsb/rsbspread/__init__.py`) -/

/-- The fields of a wire `Notification` used by the reassembly code:
`event_id.sender_id`, `event_id.sequence_number`, `data`, `wire_schema`.
Byte strings are modelled as lists of naturals / characters. -/
structure Notification where
  sender_id : List Char
  sequence_number : Nat
  data : List Nat
  wire_schema : List Char
deriving DecidableEq, Repr

/-- A `FragmentedNotification`: the embedded notification plus
`data_part` and `num_data_parts`. -/
structure Fragment where
  notification : Notification
  data_part : Nat
  num_data_parts : Nat
deriving DecidableEq, Repr

/-- `makeKey(notification)`:
`notification.event_id.sender_id + '%08x' % notification.event_id.sequence_number`. -/
def makeKey (notification : Notification) : List Char :=
  notification.sender_id ++ format08x notification.sequence_number

/-- The key of a fragment, `makeKey(fragment.notification)`. -/
def keyOf (fragment : Fragment) : List Char :=
  makeKey fragment.notification

/-- Errors raised by `Assembly`/`AssemblyPool`: the `ValueError` for a
repeated part (`DuplicateFragment` in the specification), the
`assert(self.__requiredParts > 1)` / `assert(key == self.__id)` failures,
and the `KeyError` from `self.__parts[0]` when part 0 is absent. -/
inductive AsmError where
  | duplicateFragment
  | assertionFailed
  | keyError
deriving DecidableEq, Repr

/-- A completed reassembly result:
`(notification, joined payload, wire schema)`. -/
abbrev Completed := Notification × List Nat × List Char

/-- Reassembly state for one multi-part message (`Assembly.__init__`
fields). `parts` models the dict `self.__parts` keyed by `data_part`. -/
structure Assembly where
  requiredParts : Nat
  id : List Char
  parts : List (Nat × Fragment)
deriving DecidableEq, Repr

/-- `Assembly.__init__(fragment)`: asserts `num_data_parts > 1` and
stores the fragment under its `data_part`. -/
def Assembly.ofFragment (fragment : Fragment) : Except AsmError Assembly :=
  if 1 < fragment.num_data_parts then
    .ok { requiredParts := fragment.num_data_parts
          id := makeKey fragment.notification
          parts := [(fragment.data_part, fragment)] }
  else .error .assertionFailed

/-- Ascending insertion into a sorted list of naturals. -/
def insertAsc (n : Nat) : List Nat → List Nat
  | [] => [n]
  | m :: rest => if n ≤ m then n :: m :: rest else m :: insertAsc n rest

/-- Models Python's `keys.sort()` (ascending). -/
def sortAsc : List Nat → List Nat
  | [] => []
  | n :: rest => insertAsc n (sortAsc rest)

/-- `Assembly.__join`: concatenate `parts[key].notification.data` over
the sorted part indices. -/
def Assembly.join (asm : Assembly) : List Nat :=
  (sortAsc (asm.parts.map Prod.fst)).foldl
    (fun finalData key =>
      finalData ++ (match lookupA key asm.parts with
                    | some fragment => fragment.notification.data
                    | none => []))
    []

/-- `Assembly.add(fragment)`: assert the key matches, raise on a repeated
`data_part`, store the fragment, and return the joined result once
`requiredParts` parts are present (the notification and wire schema are
taken from part 0; `self.__parts[0]` raises `KeyError` if part 0 is
absent, in which case the fragment has nevertheless been stored).
Returns the result (or error) together with the assembly state
afterwards. -/
def Assembly.add (asm : Assembly) (fragment : Fragment) :
    Except AsmError (Option Completed) × Assembly :=
  let key := makeKey fragment.notification
  if key ≠ asm.id then (.error .assertionFailed, asm)
  else if (lookupA fragment.data_part asm.parts).isSome then
    (.error .duplicateFragment, asm)
  else
    let asm2 : Assembly := { asm with parts := asm.parts ++ [(fragment.data_part, fragment)] }
    if asm2.parts.length = asm2.requiredParts then
      match lookupA 0 asm2.parts with
      | none => (.error .keyError, asm2)
      | some part0 =>
          (.ok (some (part0.notification, asm2.join, part0.notification.wire_schema)), asm2)
    else (.ok none, asm2)

/-- `AssemblyPool.__init__`: the dict `self.__assemblies`. -/
structure AssemblyPool where
  assemblies : List (List Char × Assembly)
deriving DecidableEq, Repr

/-- `AssemblyPool.add(fragment)`: single-part fragments complete
immediately without touching the pool; otherwise look up or create the
assembly for the fragment's key, delete it on completion.  Returns the
result (or error) together with the pool state afterwards. -/
def AssemblyPool.add (pool : AssemblyPool) (fragment : Fragment) :
    Except AsmError (Option Completed) × AssemblyPool :=
  let notification := fragment.notification
  if fragment.num_data_parts = 1 then
    (.ok (some (notification, notification.data, notification.wire_schema)), pool)
  else
    let key := makeKey notification
    match lookupA key pool.assemblies with
    | none =>
        match Assembly.ofFragment fragment with
        | .ok asm => (.ok none, ⟨pool.assemblies ++ [(key, asm)]⟩)
        | .error e => (.error e, pool)
    | some asm =>
        match asm.add fragment with
        | (.ok (some result), _) => (.ok (some result), ⟨removeA key pool.assemblies⟩)
        | (.ok none, asm2) => (.ok none, ⟨updateA key asm2 pool.assemblies⟩)
        | (.error e, asm2) => (.error e, ⟨updateA key asm2 pool.assemblies⟩)

/-- Feed a list of fragments to the pool in order, collecting each call's
result. -/
def AssemblyPool.run (pool : AssemblyPool) :
    List Fragment → AssemblyPool × List (Except AsmError (Option Completed))
  | [] => (pool, [])
  | fragment :: rest =>
      let step := pool.add fragment
      let result := step.2.run rest
      (result.1, step.1 :: result.2)

/-- The parts dictionary that stores each fragment of a list under its
`data_part`. -/
def partsOf (fragments : List Fragment) : List (Nat × Fragment) :=
  fragments.map (fun f => (f.data_part, f))

/-- The data of the unique fragment with the given part index (used to
state the expected reassembled payload). -/
def partData (fragments : List Fragment) (i : Nat) : List Nat :=
  match fragments.find? (fun f => decide (f.data_part = i)) with
  | some f => f.notification.data
  | none => []

/-- Payload chunks concatenated in ascending `data_part` order, the
expected result of reassembly. -/
def concatParts (fragments : List Fragment) (n : Nat) : List Nat :=
  (List.range n).foldl (fun acc i => acc ++ partData fragments i) []

/-! ### Localization: `AssemblyPool.add` touches only its fragment's key -/

/-- The entries of the pool stored under `key` (zero or one entry for a
pool whose keys are unique). -/
def entriesFor (key : List Char) (pool : AssemblyPool) : List (List Char × Assembly) :=
  pool.assemblies.filter (fun e => decide (e.1 = key))


/-- The results, in order, of the `add` calls made for the fragments
carrying the given key (used to state per-key properties of a run over
an interleaved fragment stream). -/
def outputsForKey (key : List Char) :
    List Fragment → List (Except AsmError (Option Completed)) →
      List (Except AsmError (Option Completed))
  | [], _ => []
  | _ :: _, [] => []
  | f :: fs, r :: rs =>
      if keyOf f = key then r :: outputsForKey key fs rs else outputsForKey key fs rs


/-- A concrete notification for witnesses: sender `"a"`, sequence 0. -/
def demoNotification (data : List Nat) : Notification :=
  ⟨['a'], 0, data, ['u', '8']⟩

/-- A concrete notification with a different key: sender `"b"`. -/
def demoNotificationB (data : List Nat) : Notification :=
  ⟨['b'], 0, data, ['u', '8']⟩

/-- A concrete fragment of the `"a"` message. -/
def demoFragment (part total : Nat) (data : List Nat) : Fragment :=
  ⟨demoNotification data, part, total⟩

/-- Witness pool for the duplicate-fragment claim: one in-progress
assembly holding part 0 of 2. -/
def c5pool : AssemblyPool := (AssemblyPool.add ⟨[]⟩ (demoFragment 0 2 [1, 2])).2

/-- The assembly stored in `c5pool`. -/
def c5asm : Assembly :=
  ⟨2, keyOf (demoFragment 0 2 [1, 2]), [(0, demoFragment 0 2 [1, 2])]⟩

/-- Witness key: the key of the `"a"` message. -/
def c2key : List Char := keyOf (demoFragment 0 2 [1, 2])

/-- Witness fragment stream: a two-part `"a"` message interleaved with a
single-part `"b"` message. -/
def c2msgs : List Fragment :=
  [demoFragment 0 2 [1, 2], ⟨demoNotificationB [7], 0, 1⟩, demoFragment 1 2 [3]]

/-- Part 0 of 3 of the `"a"` message (counterexample input). -/
def c10frag1 : Fragment := ⟨demoNotification [1], 0, 3⟩

/-- A single-part fragment carrying the same key as `c10frag1`. -/
def c10frag2 : Fragment := ⟨demoNotification [9], 0, 1⟩

/-- Another part 0 of 3 with the same key (arrives after completion). -/
def c10frag3 : Fragment := ⟨demoNotification [2], 0, 3⟩

/-- Pool holding the in-progress three-part assembly for the key. -/
def c10pool1 : AssemblyPool := (AssemblyPool.add ⟨[]⟩ c10frag1).2

/-- Pool holding part 0 of a two-part message, used for the amended-claim
witness. -/
def c10wpool : AssemblyPool := (AssemblyPool.add ⟨[]⟩ (demoFragment 0 2 [1])).2


/-- Decidable equality for `Except` results, used to evaluate witnesses. -/
instance exceptDecidableEq {ε α : Type} [DecidableEq ε] [DecidableEq α] :
    DecidableEq (Except ε α) := fun a b =>
  match a, b with
  | .error e, .error f =>
      if h : e = f then .isTrue (by rw [h]) else .isFalse (by intro hc; cases hc; exact h rfl)
  | .ok x, .ok y =>
      if h : x = y then .isTrue (by rw [h]) else .isFalse (by intro hc; cases hc; exact h rfl)
  | .error _, .ok _ => .isFalse (by intro hc; cases hc)
  | .ok _, .error _ => .isFalse (by intro hc; cases hc)


/-! ### `MetaData`, `Event` and `Informer` (`rsb/__init__.py`) -/

/-- `MetaData`: `createTime` (defaulted at construction), three optional
timestamps and two user dictionaries.  Timestamps are modelled as
naturals, dictionary keys and values as naturals. -/
structure MetaData where
  createTime : Nat
  sendTime : Option Nat
  receiveTime : Option Nat
  deliverTime : Option Nat
  userTimes : List (Nat × Nat)
  userInfos : List (Nat × Nat)
deriving DecidableEq, Repr

/-- Python dictionary equality: same keys with equal values (order of
insertion is irrelevant). -/
def dictEq (d1 d2 : List (Nat × Nat)) : Bool :=
  ((d1 ++ d2).map Prod.fst).all (fun k => lookupA k d1 == lookupA k d2)

/-- `MetaData.__eq__`: structural comparison of the four timestamps and
the two user dictionaries. -/
def metaDataEq (a b : MetaData) : Bool :=
  decide (a.createTime = b.createTime) && decide (a.sendTime = b.sendTime)
    && decide (a.receiveTime = b.receiveTime) && decide (a.deliverTime = b.deliverTime)
    && dictEq a.userInfos b.userInfos && dictEq a.userTimes b.userTimes

/-- `Event`: the lazily computed id cache (`self.__id`), sequence
number, scope (represented by its component list, as `Scope.__eq__`
compares components), sender id, user data, data type and meta data.
Opaque Python values (sender UUIDs, data, types) are modelled as
naturals. -/
structure Event where
  idCache : Option Nat
  sequenceNumber : Option Nat
  scope : List (List Char)
  senderId : Option Nat
  data : Option Nat
  type : Option Nat
  metaData : MetaData
deriving DecidableEq, Repr

/-- `Event.__eq__`: compares sequenceNumber, scope, senderId, type,
data and metaData (and nothing else). -/
def eventEq (a b : Event) : Bool :=
  decide (a.sequenceNumber = b.sequenceNumber) && decide (a.scope = b.scope)
    && decide (a.senderId = b.senderId) && decide (a.type = b.type)
    && decide (a.data = b.data) && metaDataEq a.metaData b.metaData

/-- Deterministic model of `uuid.uuid5(namespace, name)`: in CPython a
pure (SHA-1 based) function of its two arguments; only determinism and
totality matter for the claims, so an injective-style encoding is
used. -/
def uuid5 (namespaceId : Nat) (name : List Char) : Nat :=
  name.foldl (fun acc c => acc * 1114112 + c.toNat) (namespaceId + 1)

/-- The failure of `Event.getId` when senderId or sequenceNumber is
unset.  (CPython raises `TypeError` from `'%08x' % None` or
`AttributeError` from `uuid.uuid5(None, ...)`; the specification calls
this failure `IncompleteEvent`.) -/
inductive EventError where
  | incompleteEvent
deriving DecidableEq, Repr

/-- `Event.getId`: returns the cached id if present, otherwise computes
`uuid.uuid5(self.__senderId, '%08x' % self.__sequenceNumber)`, stores it
in the cache and returns it; fails when either field is unset.  The
returned `Event` is the event state after the call (Python mutates
`self.__id` in place). -/
def Event.getId (e : Event) : Except EventError (Nat × Event) :=
  match e.idCache with
  | some v => .ok (v, e)
  | none =>
    match e.senderId, e.sequenceNumber with
    | some sid, some seqNr =>
        let v := uuid5 sid (format08x seqNr)
        .ok (v, { e with idCache := some v })
    | _, _ => .error .incompleteEvent

/-- The specification's richer Event model: this version of the code has
no causes field at all, so to state the claimed equality (which mentions
the causes set) the spec's Event is modelled as the implementation's
`Event` extended with a set of cause event-ids, following the spec's
data model (`causes: set<EventId>` with `EventId` a pair of participant
id and sequence number). -/
structure SpecEvent extends Event where
  causes : List (Nat × Nat)
deriving DecidableEq, Repr

/-- Equality of cause sets (sets compared extensionally). -/
def causesSetEq (a b : List (Nat × Nat)) : Bool :=
  decide (∀ c ∈ a, c ∈ b) && decide (∀ c ∈ b, c ∈ a)

/-- The Event equality prescribed by the specification: agreement on
sequenceNumber, scope, senderId, dataType, data, the causes set, and
metaData. -/
def specEventAgrees (a b : SpecEvent) : Prop :=
  a.sequenceNumber = b.sequenceNumber ∧ a.scope = b.scope ∧ a.senderId = b.senderId
    ∧ a.type = b.type ∧ a.data = b.data ∧ causesSetEq a.causes b.causes = true
    ∧ metaDataEq a.metaData b.metaData = true

/-- `Informer`: its scope, payload type, participant id (`self.id`,
used as the events' senderId) and the sequence-number counter
(`self.__sequenceNumber`, starting at 0 in `__init__`). -/
structure Informer where
  scope : List (List Char)
  type : Option Nat
  participantId : Nat
  sequenceNumber : Nat
deriving DecidableEq, Repr

/-- The `ValueError` raised by `publishEvent` on scope or type
mismatch. -/
inductive PublishError where
  | valueError
deriving DecidableEq, Repr

/-- `Informer.publishEvent`: rejects an event whose scope or type does
not match the informer, otherwise (under `self.__mutex`) overwrites the
event's sequenceNumber with the informer's counter, increments the
counter, and sets the event's senderId to the informer's id.  Returns
the published event and the informer state afterwards. -/
def Informer.publishEvent (informer : Informer) (event : Event) :
    Except PublishError (Event × Informer) :=
  if event.scope ≠ informer.scope then .error .valueError
  else if event.type ≠ informer.type then .error .valueError
  else
    .ok ({ event with sequenceNumber := some informer.sequenceNumber,
                      senderId := some informer.participantId },
         { informer with sequenceNumber := informer.sequenceNumber + 1 })

/-- Publish a list of events through one informer, collecting each
call's result. -/
def Informer.publishAll (informer : Informer) :
    List Event → Informer × List (Except PublishError Event)
  | [] => (informer, [])
  | e :: rest =>
    match informer.publishEvent e with
    | .ok (e2, inf2) =>
        let r := inf2.publishAll rest
        (r.1, .ok e2 :: r.2)
    | .error err =>
        let r := informer.publishAll rest
        (r.1, .error err :: r.2)

/-- The events accepted (not rejected) by a sequence of publish
calls. -/
def acceptedEvents (outs : List (Except PublishError Event)) : List Event :=
  outs.filterMap (fun o => match o with | .ok e => some e | .error _ => none)

/-! ### `Scope` parsing and printing (`rsb/__init__.py`) -/

/-- The component regex `^[a-zA-Z0-9]+$`, one character at a time. -/
def isScopeComponentChar (c : Char) : Bool :=
  c.isAlpha || c.isDigit

/-- Python's `str.split(sep)`: split on every occurrence of the
separator, keeping empty pieces. -/
def splitOn (sep : Char) : List Char → List (List Char)
  | [] => [[]]
  | c :: rest =>
    let r := splitOn sep rest
    if c = sep then [] :: r
    else
      match r with
      | [] => [[c]]
      | h :: t => (c :: h) :: t

/-- The `ValueError` raised by `Scope.__init__` on malformed input. -/
inductive ScopeError where
  | valueError
deriving DecidableEq, Repr

/-- `Scope.__init__(stringRep)`: reject the empty string, append a
missing trailing separator, split on the separator, require the first
and last raw components to be empty (leading and trailing slash), take
the components in between and require each to match `^[a-zA-Z0-9]+$`.
Returns the component list (`self.__components`). -/
def parseScope (stringRep : List Char) : Except ScopeError (List (List Char)) :=
  if stringRep.length = 0 then .error .valueError
  else
    let stringRep2 := if stringRep.getLast? ≠ some '/' then stringRep ++ ['/'] else stringRep
    let rawComponents := splitOn '/' stringRep2
    if rawComponents.length < 1 then .error .valueError
    else if (rawComponents.head?.getD []).length ≠ 0 then .error .valueError
    else if (rawComponents.getLast?.getD []).length ≠ 0 then .error .valueError
    else
      let components := (rawComponents.drop 1).dropLast
      if components.all (fun com => !com.isEmpty && com.all isScopeComponentChar)
      then .ok components
      else .error .valueError

/-- `Scope.toString`: `"/" + com1 + "/" + com2 + "/" + ...`. -/
def scopeToString (components : List (List Char)) : List Char :=
  components.foldl (fun string com => string ++ com ++ ['/']) ['/']

/-- `Scope.__eq__`: component lists compared structurally. -/
def scopeEq (a b : List (List Char)) : Bool :=
  decide (a = b)

/-- The components each followed by a separator (proof-side normal form
of `scopeToString`). -/
def flatSlash : List (List Char) → List Char
  | [] => []
  | c :: cs => c ++ '/' :: flatSlash cs

/-- Empty meta data for witnesses. -/
def demoMetaData : MetaData := ⟨0, none, none, none, [], []⟩

/-- A fresh event (nothing set) for witnesses. -/
def demoEvent : Event := ⟨none, none, [], none, none, none, demoMetaData⟩

/-- Witness event with senderId 3 and sequenceNumber 5. -/
def c6event : Event := ⟨none, some 5, [], some 3, none, none, demoMetaData⟩

/-- `c6event` after its id has been computed and cached. -/
def c6cached : Event := { c6event with idCache := some (uuid5 3 (format08x 5)) }

/-- Two spec-model events that differ only in their causes sets. -/
def c7a : SpecEvent := ⟨demoEvent, [(1, 1)]⟩

/-- Companion of `c7a` with an empty causes set. -/
def c7b : SpecEvent := ⟨demoEvent, []⟩

/-- Witness informer: scope `/s/`, type 1, participant id 42, counter
0. -/
def c8informer : Informer := ⟨[['s']], some 1, 42, 0⟩

/-- An event matching `c8informer`, carrying a caller-supplied (and
ignored) sequence number. -/
def c8e1 : Event := ⟨none, some 99, [['s']], none, none, some 1, demoMetaData⟩

/-- An event with the wrong scope (rejected by `publishEvent`). -/
def c8bad : Event := ⟨none, none, [['x']], none, none, some 1, demoMetaData⟩

/-- A second event matching `c8informer`. -/
def c8e2 : Event := ⟨none, none, [['s']], none, none, some 1, demoMetaData⟩

/-- Witness event stream: two accepted events around a rejected one. -/
def c8events : List Event := [c8e1, c8bad, c8e2]


/-! ### The ordered dispatcher pool (`rsb/util.py`) as a transition system -/

/-- Messages dispatched by the pool, modelled as naturals. -/
abbrev Msg := Nat

/-- One registration (`OrderedQueueDispatcherPool._Receiver`): the
receiver object (modelled by a natural), its queue, the `processing`
flag, plus instrumentation recording the messages for which the
delivery function has been invoked for this registration, in invocation
order. -/
structure Reg where
  receiver : Nat
  queue : List Msg
  processing : Bool
  delivered : List Msg
deriving DecidableEq, Repr

/-- The phase of one worker thread inside `_worker`'s loop: `idle`
(blocked in `_next_job`), `claimed i` (returned from `_next_job`, which
marked registration `i` as processing), `gotMsg i m` (after
`receiver.queue.get`), `delivering i m` (inside `self._del_func`),
`done i` (after delivery or filter rejection, before `_finished_work`),
and `dead i` (the filter or delivery function raised: the exception
propagates out of the worker loop and `_finished_work` never runs). -/
inductive WPhase where
  | idle
  | claimed (i : Nat)
  | gotMsg (i : Nat) (m : Msg)
  | delivering (i : Nat) (m : Msg)
  | done (i : Nat)
  | dead (i : Nat)
deriving DecidableEq, Repr

/-- Global state of an `OrderedQueueDispatcherPool`, its worker threads
and a possibly in-progress `unregister_receiver` call.  `regs` holds
every `_Receiver` object ever created (workers and the unregister call
keep references to removed ones); `registered` is `self._receivers` as
a list of indices into `regs`; `pushed` records every pushed message;
`unreg` is `none` when no unregister call is in progress and
`some removed` while one is blocked waiting, where `removed` is the
call's `removed` variable (the LAST matching registration, if any). -/
structure PoolState where
  regs : List Reg
  registered : List Nat
  workers : List WPhase
  pushed : List Msg
  unreg : Option (Option Nat)
deriving DecidableEq, Repr

/-- The atomic steps of the system.  The locks of the Python code
(`self._condition` and the per-receiver conditions) make each step
atomic; which enabled step runs next is left nondeterministic, which
over-approximates the concrete scheduling (condition-variable wakeups,
`_jobsAvailable` and the round-robin cursor of `_next_job` only select
among the enabled claims). -/
inductive PoolLabel where
  | push (m : Msg)
  | claim (w i : Nat)
  | pop (w : Nat)
  | filterAccept (w : Nat)
  | filterReject (w : Nat)
  | raiseCb (w : Nat)
  | deliverEnd (w : Nat)
  | finish (w : Nat)
  | unregCall (recv : Nat)
  | unregReturn
deriving DecidableEq, Repr

/-- `push` appends the message to the queue of every currently
registered receiver (`for receiver in self._receivers:
receiver.queue.put(message)`); the index argument tracks positions in
`regs`. -/
def pushToQueues (m : Msg) (registered : List Nat) : Nat → List Reg → List Reg
  | _, [] => []
  | i, r :: rest =>
      (if i ∈ registered then { r with queue := r.queue ++ [m] } else r)
        :: pushToQueues m registered (i + 1) rest

/-- Whether registration `i` belongs to receiver `recv`
(`r.receiver == receiver` in `unregister_receiver`). -/
def matchesRecv (s : PoolState) (recv i : Nat) : Bool :=
  match s.regs[i]? with
  | some r => decide (r.receiver = recv)
  | none => false

/-- One atomic step; `none` means the step is not enabled.  Guards
mirror the checks the Python code performs under its locks:
a claim requires membership in `self._receivers`, `processing == False`
and a non-empty queue (`_next_job`); `finish` is `_finished_work`;
`unregCall` removes all matching registrations and records the loop's
`removed` variable; `unregReturn` requires `removed.processing` to be
false (the wait on `processing_condition`). -/
def applyLabel (filt : Nat → Msg → Bool) (l : PoolLabel) (s : PoolState) : Option PoolState :=
  match l with
  | .push m =>
      some { s with regs := pushToQueues m s.registered 0 s.regs, pushed := s.pushed ++ [m] }
  | .claim w i =>
      match s.workers[w]?, s.regs[i]? with
      | some .idle, some r =>
          if i ∈ s.registered ∧ r.processing = false ∧ r.queue ≠ [] then
            some { s with regs := s.regs.set i { r with processing := true },
                          workers := s.workers.set w (.claimed i) }
          else none
      | _, _ => none
  | .pop w =>
      match s.workers[w]? with
      | some (.claimed i) =>
          match s.regs[i]? with
          | some r =>
              match r.queue with
              | m :: rest =>
                  some { s with regs := s.regs.set i { r with queue := rest },
                                workers := s.workers.set w (.gotMsg i m) }
              | [] => none
          | none => none
      | _ => none
  | .filterAccept w =>
      match s.workers[w]? with
      | some (.gotMsg i m) =>
          match s.regs[i]? with
          | some r =>
              if filt r.receiver m then
                some { s with regs := s.regs.set i { r with delivered := r.delivered ++ [m] },
                              workers := s.workers.set w (.delivering i m) }
              else none
          | none => none
      | _ => none
  | .filterReject w =>
      match s.workers[w]? with
      | some (.gotMsg i m) =>
          match s.regs[i]? with
          | some r =>
              if filt r.receiver m then none
              else some { s with workers := s.workers.set w (.done i) }
          | none => none
      | _ => none
  | .raiseCb w =>
      match s.workers[w]? with
      | some (.gotMsg i _) => some { s with workers := s.workers.set w (.dead i) }
      | some (.delivering i _) => some { s with workers := s.workers.set w (.dead i) }
      | _ => none
  | .deliverEnd w =>
      match s.workers[w]? with
      | some (.delivering i _) => some { s with workers := s.workers.set w (.done i) }
      | _ => none
  | .finish w =>
      match s.workers[w]? with
      | some (.done i) =>
          match s.regs[i]? with
          | some r =>
              some { s with regs := s.regs.set i { r with processing := false },
                            workers := s.workers.set w .idle }
          | none => none
      | _ => none
  | .unregCall recv =>
      match s.unreg with
      | none =>
          some { s with registered := s.registered.filter (fun i => !matchesRecv s recv i),
                        unreg := some ((s.registered.filter (matchesRecv s recv)).getLast?) }
      | some _ => none
  | .unregReturn =>
      match s.unreg with
      | none => none
      | some none => some { s with unreg := none }
      | some (some i) =>
          match s.regs[i]? with
          | some r => if r.processing then none else some { s with unreg := none }
          | none => none

/-- Run a sequence of steps; `none` when some step is not enabled. -/
def runLabels (filt : Nat → Msg → Bool) (s : PoolState) : List PoolLabel → Option PoolState
  | [] => some s
  | l :: rest =>
      match applyLabel filt l s with
      | some s2 => runLabels filt s2 rest
      | none => none

/-- Whether a worker phase holds (is engaged with) registration `i`. -/
def engagedWith (i : Nat) (w : WPhase) : Bool :=
  match w with
  | .idle => false
  | .claimed j => decide (j = i)
  | .gotMsg j _ => decide (j = i)
  | .delivering j _ => decide (j = i)
  | .done j => decide (j = i)
  | .dead j => decide (j = i)

/-- The message a worker has popped from registration `i`'s queue but
not yet passed to the filter. -/
def pendingMsg (i : Nat) (w : WPhase) : Option Msg :=
  match w with
  | .gotMsg j m => if j = i then some m else none
  | _ => none

/-- All in-flight popped messages for registration `i` (at most one, by
the processing-flag discipline). -/
def pendingFor (s : PoolState) (i : Nat) : List Msg :=
  s.workers.filterMap (pendingMsg i)

/-- A freshly started pool: empty queues, no processing flags, no
deliveries yet, all workers idle, nothing pushed, no unregister call in
progress, and a duplicate-free list of valid registration indices. -/
def InitState (s : PoolState) : Prop :=
  (∀ r ∈ s.regs, r.queue = [] ∧ r.processing = false ∧ r.delivered = []) ∧
  (∀ w ∈ s.workers, w = WPhase.idle) ∧
  s.pushed = [] ∧ s.unreg = none ∧ s.registered.Nodup ∧
  (∀ i ∈ s.registered, i < s.regs.length)

/-- Structural safety invariant: engaged workers point at existing
registrations, at most one worker is engaged with any registration, a
registration is marked processing exactly when one worker is engaged
with it, and the registered list is duplicate-free and in range. -/
def DInv (s : PoolState) : Prop :=
  (∀ w ∈ s.workers, ∀ i : Nat, engagedWith i w = true → i < s.regs.length) ∧
  (∀ i r, s.regs[i]? = some r →
     (r.processing = true ↔ s.workers.countP (engagedWith i) = 1) ∧
     s.workers.countP (engagedWith i) ≤ 1) ∧
  s.registered.Nodup ∧
  (∀ i ∈ s.registered, i < s.regs.length)

/-- Per-registration ordering invariant for registration `i` of
receiver `recv`: the invoked deliveries, the accepted part of the
in-flight popped message and the accepted part of the queue are, in
order, exactly the accepted pushed messages. -/
def OInv (filt : Nat → Msg → Bool) (recv i : Nat) (s : PoolState) : Prop :=
  i ∈ s.registered ∧
  ∃ r, s.regs[i]? = some r ∧ r.receiver = recv ∧
    r.delivered ++ (pendingFor s i).filter (filt recv) ++ r.queue.filter (filt recv)
      = s.pushed.filter (filt recv)

/-- The accept-everything filter used in witnesses. -/
def cFiltTrue : Nat → Msg → Bool := fun _ _ => true

/-- C1 witness initial state: receiver 7 registered once, one worker. -/
def c1init : PoolState := ⟨[⟨7, [], false, []⟩], [0], [.idle], [], none⟩

/-- C1 witness trace: two messages pushed and delivered in order. -/
def c1trace : List PoolLabel :=
  [.push 1, .push 2, .claim 0 0, .pop 0, .filterAccept 0, .deliverEnd 0, .finish 0,
   .claim 0 0, .pop 0, .filterAccept 0, .deliverEnd 0, .finish 0]

/-- C3 counterexample initial state: receiver 5 registered twice, one
worker. -/
def c3init : PoolState :=
  ⟨[⟨5, [], false, []⟩, ⟨5, [], false, []⟩], [0, 1], [.idle], [], none⟩

/-- C3 counterexample trace: the worker is mid-delivery for the FIRST
registration of receiver 5 when `unregister_receiver(5)` is called; the
call waits only on the LAST matching registration (never claimed, not
processing) and returns immediately. -/
def c3trace : List PoolLabel :=
  [.push 9, .claim 0 0, .pop 0, .filterAccept 0, .unregCall 5, .unregReturn]

/-- The state reached by `c3trace`: the unregister call has returned
(`unreg = none`) while the worker is still delivering message 9 to
receiver 5 through removed registration 0. -/
def c3state : PoolState :=
  ⟨[⟨5, [], true, [9]⟩, ⟨5, [9], false, []⟩], [], [.delivering 0 9], [9], none⟩

/-- C3 amended-claim witness initial state: receiver 7 registered once,
next to an unrelated receiver 8. -/
def c3winit : PoolState :=
  ⟨[⟨7, [], false, []⟩, ⟨8, [], false, []⟩], [0, 1], [.idle], [], none⟩

/-- C3 amended-claim witness trace before the unregister call: one full
delivery to receiver 7. -/
def c3wtrace : List PoolLabel :=
  [.push 4, .claim 0 0, .pop 0, .filterAccept 0, .deliverEnd 0, .finish 0]

/-- C4 initial state: receiver 7 registered once, one worker. -/
def c4init : PoolState := ⟨[⟨7, [], false, []⟩], [0], [.idle], [], none⟩

/-- C4 trace: the delivery callback for message 3 raises. -/
def c4trace : List PoolLabel :=
  [.push 3, .claim 0 0, .pop 0, .filterAccept 0, .raiseCb 0]

/-- The state reached by `c4trace`: the worker is dead and registration
0 is still marked processing. -/
def c4state : PoolState := ⟨[⟨7, [], true, [3]⟩], [0], [.dead 0], [3], none⟩

/-- Whether a label is a callback failure (`raiseCb`). -/
def isRaiseCb : PoolLabel → Bool
  | .raiseCb _ => true
  | _ => false

/-- Whether a label is an `unregister_receiver` call for `recv`. -/
def isUnregCallOf (recv : Nat) : PoolLabel → Bool
  | .unregCall r => decide (r = recv)
  | _ => false

/-- The value `unregister_receiver` returns, `not (removed is None)`,
read off the call's recorded `removed` variable. -/
def unregResult (removed : Option Nat) : Bool :=
  removed.isSome

/-- The state reached by `c1trace`: both messages delivered in push
order, the pool quiescent again. -/
def c1final : PoolState := ⟨[⟨7, [], false, [1, 2]⟩], [0], [WPhase.idle], [1, 2], none⟩

/-- The state reached by `c3wtrace`: message 4 delivered to receiver 7,
still queued for the unrelated receiver 8. -/
def c3wstate : PoolState :=
  ⟨[⟨7, [], false, [4]⟩, ⟨8, [4], false, []⟩], [0, 1], [WPhase.idle], [4], none⟩

/-- `c3wstate` right after `unregister_receiver(7)` was called. -/
def c3ws1 : PoolState :=
  ⟨[⟨7, [], false, [4]⟩, ⟨8, [4], false, []⟩], [1], [WPhase.idle], [4], some (some 0)⟩

/-- `c3ws1` after the unregister call returned. -/
def c3ws2 : PoolState :=
  ⟨[⟨7, [], false, [4]⟩, ⟨8, [4], false, []⟩], [1], [WPhase.idle], [4], none⟩

/-! ## Theorems -/

theorem lookupA_updateA_of_lookup_eq {κ ν : Type} [DecidableEq κ] (k : κ) (v : ν) :
    ∀ (l : List (κ × ν)), lookupA k l = some v →
      ∀ k', lookupA k' (updateA k v l) = lookupA k' l := by
  intro l
  induction l with
  | nil => intro h; simp [lookupA] at h
  | cons e rest ih =>
    intro h k'
    by_cases he : e.1 = k
    · subst he
      simp only [lookupA, if_pos rfl] at h
      obtain rfl : e.2 = v := Option.some.inj h
      simp [updateA, lookupA]
    · have h' : lookupA k rest = some v := by simpa [lookupA, he] using h
      simp only [updateA, if_neg he, lookupA]
      by_cases hk' : e.1 = k'
      · simp [hk']
      · simp [hk', ih h']

theorem lookupA_append_right_of_none {κ ν : Type} [DecidableEq κ] (k : κ) :
    ∀ (l l' : List (κ × ν)), lookupA k l = none →
      lookupA k (l ++ l') = lookupA k l' := by
  intro l
  induction l with
  | nil => simp
  | cons e rest ih =>
    intro l' h
    simp only [lookupA] at h ⊢
    by_cases he : e.1 = k
    · simp [he] at h
    · simp only [List.cons_append, lookupA, if_neg he]
      exact ih l' (by simpa [he] using h)

theorem lookupA_none_iff_keys {κ ν : Type} [DecidableEq κ] (k : κ) :
    ∀ (l : List (κ × ν)), lookupA k l = none ↔ ∀ e ∈ l, e.1 ≠ k := by
  intro l
  induction l with
  | nil => simp [lookupA]
  | cons e rest ih =>
    by_cases he : e.1 = k
    · simp [lookupA, he]
    · simp [lookupA, he, ih]

theorem lookupA_removeA_self_of_nodup {κ ν : Type} [DecidableEq κ] (k : κ) :
    ∀ (l : List (κ × ν)), (l.map Prod.fst).Nodup →
      lookupA k (removeA k l) = none := by
  intro l
  induction l with
  | nil => intro _; simp [removeA, lookupA]
  | cons e rest ih =>
    intro hnd
    simp only [List.map_cons, List.nodup_cons] at hnd
    by_cases he : e.1 = k
    · simp only [removeA, if_pos he]
      rw [lookupA_none_iff_keys]
      intro e' he' hke
      apply hnd.1
      have hmem : e'.1 ∈ List.map Prod.fst rest := List.mem_map_of_mem Prod.fst he'
      rwa [hke, ← he] at hmem
    · simp only [removeA, if_neg he, lookupA, if_neg he]
      exact ih hnd.2

/-! ### Sorting lemmas for `Assembly.join` -/

theorem insertAsc_perm (n : Nat) : ∀ l : List Nat, (insertAsc n l).Perm (n :: l) := by
  intro l
  induction l with
  | nil => simp [insertAsc]
  | cons m rest ih =>
    simp only [insertAsc]
    by_cases h : n ≤ m
    · simp [h]
    · simp only [if_neg h]
      exact ((ih.cons m).trans (List.Perm.swap n m rest))

theorem insertAsc_sorted (n : Nat) : ∀ l : List Nat, l.Sorted (· ≤ ·) →
    (insertAsc n l).Sorted (· ≤ ·) := by
  intro l
  induction l with
  | nil => intro _; simp [insertAsc]
  | cons m rest ih =>
    intro hs
    rw [List.sorted_cons] at hs
    simp only [insertAsc]
    by_cases h : n ≤ m
    · rw [if_pos h, List.sorted_cons]
      refine ⟨?_, by rw [List.sorted_cons]; exact hs⟩
      intro b hb
      rcases List.mem_cons.mp hb with rfl | hb
      · exact h
      · exact le_trans h (hs.1 b hb)
    · rw [if_neg h, List.sorted_cons]
      refine ⟨?_, ih hs.2⟩
      intro b hb
      have := (insertAsc_perm n rest).mem_iff.mp hb
      rcases List.mem_cons.mp this with rfl | hb'
      · exact le_of_not_le h
      · exact hs.1 b hb'

theorem sortAsc_perm : ∀ l : List Nat, (sortAsc l).Perm l := by
  intro l
  induction l with
  | nil => simp [sortAsc]
  | cons n rest ih =>
    exact (insertAsc_perm n (sortAsc rest)).trans (ih.cons n)

theorem sortAsc_sorted : ∀ l : List Nat, (sortAsc l).Sorted (· ≤ ·) := by
  intro l
  induction l with
  | nil => simp [sortAsc]
  | cons n rest ih => exact insertAsc_sorted n (sortAsc rest) ih

/-- A list that is a permutation of `range n` sorts to exactly `range n`. -/
theorem sortAsc_eq_range (n : Nat) (l : List Nat) (h : l.Perm (List.range n)) :
    sortAsc l = List.range n := by
  apply List.eq_of_perm_of_sorted ((sortAsc_perm l).trans h) (sortAsc_sorted l)
  exact (List.pairwise_lt_range n).imp le_of_lt

theorem lookupA_partsOf (i : Nat) : ∀ fragments : List Fragment,
    lookupA i (partsOf fragments) = fragments.find? (fun f => decide (f.data_part = i)) := by
  intro fragments
  induction fragments with
  | nil => simp [partsOf, lookupA]
  | cons f fs ih =>
    simp only [partsOf, List.map_cons, lookupA, List.find?]
    by_cases h : f.data_part = i
    · simp [h]
    · simp only [if_neg h, decide_eq_true_eq, h, decide_False]
      exact ih

theorem lookupA_partsOf_none (i : Nat) (fragments : List Fragment)
    (h : i ∉ fragments.map Fragment.data_part) :
    lookupA i (partsOf fragments) = none := by
  rw [lookupA_none_iff_keys]
  intro e he hi
  apply h
  simp only [partsOf, List.mem_map] at he
  obtain ⟨f, hf, rfl⟩ := he
  exact hi ▸ List.mem_map_of_mem Fragment.data_part hf

/-- `Assembly.join` over the full parts dictionary is exactly the
ascending-order concatenation. -/
theorem join_partsOf_eq_concatParts (key : List Char) (n : Nat) (ks : List Fragment)
    (hperm : (ks.map Fragment.data_part).Perm (List.range n)) :
    Assembly.join ⟨n, key, partsOf ks⟩ = concatParts ks n := by
  unfold Assembly.join concatParts
  have hfst : (partsOf ks).map Prod.fst = ks.map Fragment.data_part := by
    simp [partsOf, List.map_map]
  rw [hfst, sortAsc_eq_range n _ hperm]
  apply List.foldl_ext
  intro acc i _
  rw [lookupA_partsOf]
  unfold partData
  cases ks.find? (fun f => decide (f.data_part = i)) <;> rfl

theorem lookupA_eq_entriesFor_head (key : List Char) (pool : AssemblyPool) :
    lookupA key pool.assemblies = ((entriesFor key pool).head?).map Prod.snd := by
  unfold entriesFor
  induction pool.assemblies with
  | nil => simp [lookupA]
  | cons e rest ih =>
    by_cases h : e.1 = key
    · simp [lookupA, h]
    · simp only [lookupA, if_neg h, List.filter_cons, h, decide_False]
      exact ih

theorem filter_key_updateA_of_lookup (key : List Char) (v : Assembly) :
    ∀ l : List (List Char × Assembly), (lookupA key l).isSome →
      (updateA key v l).filter (fun e => decide (e.1 = key))
        = (key, v) :: (l.filter (fun e => decide (e.1 = key))).tail := by
  intro l
  induction l with
  | nil => intro h; simp [lookupA] at h
  | cons e rest ih =>
    intro h
    by_cases he : e.1 = key
    · simp [updateA, he, List.filter_cons]
    · simp only [lookupA, if_neg he] at h
      simp [updateA, he, List.filter_cons, ih h]

theorem filter_key_updateA_other (key key' : List Char) (v : Assembly) (hne : key' ≠ key) :
    ∀ l : List (List Char × Assembly),
      (updateA key' v l).filter (fun e => decide (e.1 = key))
        = l.filter (fun e => decide (e.1 = key)) := by
  intro l
  induction l with
  | nil => simp [updateA]
  | cons e rest ih =>
    by_cases he : e.1 = key'
    · simp only [updateA, if_pos he, List.filter_cons, he, hne, decide_False]
      simp [hne]
    · simp only [updateA, if_neg he, List.filter_cons]
      by_cases hk : e.1 = key
      · simp [hk, ih]
      · simp [hk, ih]

theorem filter_key_removeA_self (key : List Char) :
    ∀ l : List (List Char × Assembly),
      (removeA key l).filter (fun e => decide (e.1 = key))
        = (l.filter (fun e => decide (e.1 = key))).tail := by
  intro l
  induction l with
  | nil => simp [removeA]
  | cons e rest ih =>
    by_cases he : e.1 = key
    · simp [removeA, he, List.filter_cons]
    · simp [removeA, he, List.filter_cons, ih]

theorem filter_key_removeA_other (key key' : List Char) (hne : key' ≠ key) :
    ∀ l : List (List Char × Assembly),
      (removeA key' l).filter (fun e => decide (e.1 = key))
        = l.filter (fun e => decide (e.1 = key)) := by
  intro l
  induction l with
  | nil => simp [removeA]
  | cons e rest ih =>
    by_cases he : e.1 = key'
    · simp only [removeA, if_pos he, List.filter_cons, he, hne, decide_False]
      simp
    · simp only [removeA, if_neg he, List.filter_cons]
      by_cases hk : e.1 = key
      · simp [hk, ih]
      · simp [hk, ih]

/-! ### Equation lemmas for `Assembly.add` and `AssemblyPool.add` -/

theorem Assembly.add_dup (asm : Assembly) (fragment : Fragment)
    (hid : makeKey fragment.notification = asm.id)
    (hdup : (lookupA fragment.data_part asm.parts).isSome = true) :
    asm.add fragment = (.error .duplicateFragment, asm) := by
  unfold Assembly.add
  rw [if_neg (by simp [hid]), if_pos hdup]

theorem Assembly.add_store (asm asm2 : Assembly) (fragment : Fragment)
    (hid : makeKey fragment.notification = asm.id)
    (hnew : lookupA fragment.data_part asm.parts = none)
    (hasm2 : asm2 = { asm with parts := asm.parts ++ [(fragment.data_part, fragment)] })
    (hlen : asm.parts.length + 1 ≠ asm.requiredParts) :
    asm.add fragment = (.ok none, asm2) := by
  subst hasm2
  unfold Assembly.add
  rw [if_neg (by simp [hid]), if_neg (by simp [hnew])]
  simp only [List.length_append, List.length_cons, List.length_nil, Nat.zero_add]
  rw [if_neg hlen]

theorem Assembly.add_complete (asm asm2 : Assembly) (fragment : Fragment) (part0 : Fragment)
    (hid : makeKey fragment.notification = asm.id)
    (hnew : lookupA fragment.data_part asm.parts = none)
    (hasm2 : asm2 = { asm with parts := asm.parts ++ [(fragment.data_part, fragment)] })
    (hlen : asm.parts.length + 1 = asm.requiredParts)
    (h0 : lookupA 0 asm2.parts = some part0) :
    asm.add fragment =
      (.ok (some (part0.notification, asm2.join, part0.notification.wire_schema)), asm2) := by
  subst hasm2
  unfold Assembly.add
  rw [if_neg (by simp [hid]), if_neg (by simp [hnew])]
  simp only [List.length_append, List.length_cons, List.length_nil, Nat.zero_add]
  rw [if_pos hlen]
  simp only at h0
  rw [h0]

theorem AssemblyPool.add_single (pool : AssemblyPool) (fragment : Fragment)
    (h : fragment.num_data_parts = 1) :
    pool.add fragment =
      (.ok (some (fragment.notification, fragment.notification.data,
                  fragment.notification.wire_schema)), pool) := by
  unfold AssemblyPool.add
  rw [if_pos h]

theorem AssemblyPool.add_create (pool : AssemblyPool) (fragment : Fragment) (asm : Assembly)
    (h1 : fragment.num_data_parts ≠ 1)
    (hl : lookupA (makeKey fragment.notification) pool.assemblies = none)
    (hof : Assembly.ofFragment fragment = .ok asm) :
    pool.add fragment =
      (.ok none, ⟨pool.assemblies ++ [(makeKey fragment.notification, asm)]⟩) := by
  unfold AssemblyPool.add
  rw [if_neg h1]
  simp only [hl, hof]

theorem AssemblyPool.add_create_fail (pool : AssemblyPool) (fragment : Fragment) (e : AsmError)
    (h1 : fragment.num_data_parts ≠ 1)
    (hl : lookupA (makeKey fragment.notification) pool.assemblies = none)
    (hof : Assembly.ofFragment fragment = .error e) :
    pool.add fragment = (.error e, pool) := by
  unfold AssemblyPool.add
  rw [if_neg h1]
  simp only [hl, hof]

theorem AssemblyPool.add_existing_complete (pool : AssemblyPool) (fragment : Fragment)
    (asm asm2 : Assembly) (result : Completed)
    (h1 : fragment.num_data_parts ≠ 1)
    (hl : lookupA (makeKey fragment.notification) pool.assemblies = some asm)
    (hadd : asm.add fragment = (.ok (some result), asm2)) :
    pool.add fragment =
      (.ok (some result), ⟨removeA (makeKey fragment.notification) pool.assemblies⟩) := by
  unfold AssemblyPool.add
  rw [if_neg h1]
  simp only [hl, hadd]

theorem AssemblyPool.add_existing_incomplete (pool : AssemblyPool) (fragment : Fragment)
    (asm asm2 : Assembly)
    (h1 : fragment.num_data_parts ≠ 1)
    (hl : lookupA (makeKey fragment.notification) pool.assemblies = some asm)
    (hadd : asm.add fragment = (.ok none, asm2)) :
    pool.add fragment =
      (.ok none, ⟨updateA (makeKey fragment.notification) asm2 pool.assemblies⟩) := by
  unfold AssemblyPool.add
  rw [if_neg h1]
  simp only [hl, hadd]

theorem AssemblyPool.add_existing_error (pool : AssemblyPool) (fragment : Fragment)
    (asm asm2 : Assembly) (e : AsmError)
    (h1 : fragment.num_data_parts ≠ 1)
    (hl : lookupA (makeKey fragment.notification) pool.assemblies = some asm)
    (hadd : asm.add fragment = (.error e, asm2)) :
    pool.add fragment =
      (.error e, ⟨updateA (makeKey fragment.notification) asm2 pool.assemblies⟩) := by
  unfold AssemblyPool.add
  rw [if_neg h1]
  simp only [hl, hadd]

/-! ### `AssemblyPool.add` only touches the entries of its fragment's key -/

theorem add_preserves_other_entries (key : List Char) (pool : AssemblyPool)
    (fragment : Fragment) (hne : keyOf fragment ≠ key) :
    entriesFor key (pool.add fragment).2 = entriesFor key pool := by
  have hne' : makeKey fragment.notification ≠ key := hne
  by_cases h1 : fragment.num_data_parts = 1
  · rw [AssemblyPool.add_single pool fragment h1]
  · cases hl : lookupA (makeKey fragment.notification) pool.assemblies with
    | none =>
      cases hof : Assembly.ofFragment fragment with
      | ok asm =>
        rw [AssemblyPool.add_create pool fragment asm h1 hl hof]
        simp [entriesFor, List.filter_append, hne']
      | error e =>
        rw [AssemblyPool.add_create_fail pool fragment e h1 hl hof]
    | some asm =>
      rcases hadd : asm.add fragment with ⟨r, asm2⟩
      rcases r with e | opt
      · rw [AssemblyPool.add_existing_error pool fragment asm asm2 e h1 hl hadd]
        exact filter_key_updateA_other key _ asm2 hne' pool.assemblies
      · rcases opt with _ | result
        · rw [AssemblyPool.add_existing_incomplete pool fragment asm asm2 h1 hl hadd]
          exact filter_key_updateA_other key _ asm2 hne' pool.assemblies
        · rw [AssemblyPool.add_existing_complete pool fragment asm asm2 result h1 hl hadd]
          exact filter_key_removeA_other key _ hne' pool.assemblies

theorem add_congr_entriesFor (key : List Char) (p q : AssemblyPool) (fragment : Fragment)
    (h : entriesFor key p = entriesFor key q) :
    (keyOf fragment = key → (p.add fragment).1 = (q.add fragment).1) ∧
    entriesFor key (p.add fragment).2 = entriesFor key (q.add fragment).2 := by
  by_cases hk : keyOf fragment = key
  · have hmk : makeKey fragment.notification = key := hk
    have hlpq : lookupA (makeKey fragment.notification) p.assemblies
        = lookupA (makeKey fragment.notification) q.assemblies := by
      rw [hmk, lookupA_eq_entriesFor_head key p, lookupA_eq_entriesFor_head key q, h]
    by_cases h1 : fragment.num_data_parts = 1
    · rw [AssemblyPool.add_single p fragment h1, AssemblyPool.add_single q fragment h1]
      exact ⟨fun _ => rfl, h⟩
    · cases hl : lookupA (makeKey fragment.notification) p.assemblies with
      | none =>
        have hlq := hlpq ▸ hl
        cases hof : Assembly.ofFragment fragment with
        | ok asm =>
          rw [AssemblyPool.add_create p fragment asm h1 hl hof,
              AssemblyPool.add_create q fragment asm h1 hlq hof]
          constructor
          · intro _; rfl
          · simp only [entriesFor, List.filter_append] at h ⊢
            rw [h]
        | error e =>
          rw [AssemblyPool.add_create_fail p fragment e h1 hl hof,
              AssemblyPool.add_create_fail q fragment e h1 hlq hof]
          exact ⟨fun _ => rfl, h⟩
      | some asm =>
        have hlq := hlpq ▸ hl
        have hsome_p : (lookupA (makeKey fragment.notification) p.assemblies).isSome := by
          rw [hl]; rfl
        have hsome_q : (lookupA (makeKey fragment.notification) q.assemblies).isSome := by
          rw [hlq]; rfl
        rcases hadd : asm.add fragment with ⟨r, asm2⟩
        rcases r with e | opt
        · rw [AssemblyPool.add_existing_error p fragment asm asm2 e h1 hl hadd,
              AssemblyPool.add_existing_error q fragment asm asm2 e h1 hlq hadd]
          refine ⟨fun _ => rfl, ?_⟩
          show (updateA (makeKey fragment.notification) asm2 p.assemblies).filter _
              = (updateA (makeKey fragment.notification) asm2 q.assemblies).filter _
          rw [hmk] at hsome_p hsome_q ⊢
          rw [filter_key_updateA_of_lookup key asm2 p.assemblies hsome_p,
              filter_key_updateA_of_lookup key asm2 q.assemblies hsome_q]
          show _ :: (entriesFor key p).tail = _ :: (entriesFor key q).tail
          rw [h]
        · rcases opt with _ | result
          · rw [AssemblyPool.add_existing_incomplete p fragment asm asm2 h1 hl hadd,
                AssemblyPool.add_existing_incomplete q fragment asm asm2 h1 hlq hadd]
            refine ⟨fun _ => rfl, ?_⟩
            show (updateA (makeKey fragment.notification) asm2 p.assemblies).filter _
                = (updateA (makeKey fragment.notification) asm2 q.assemblies).filter _
            rw [hmk] at hsome_p hsome_q ⊢
            rw [filter_key_updateA_of_lookup key asm2 p.assemblies hsome_p,
                filter_key_updateA_of_lookup key asm2 q.assemblies hsome_q]
            show _ :: (entriesFor key p).tail = _ :: (entriesFor key q).tail
            rw [h]
          · rw [AssemblyPool.add_existing_complete p fragment asm asm2 result h1 hl hadd,
                AssemblyPool.add_existing_complete q fragment asm asm2 result h1 hlq hadd]
            refine ⟨fun _ => rfl, ?_⟩
            show (removeA (makeKey fragment.notification) p.assemblies).filter _
                = (removeA (makeKey fragment.notification) q.assemblies).filter _
            rw [hmk, filter_key_removeA_self key p.assemblies,
                filter_key_removeA_self key q.assemblies]
            show (entriesFor key p).tail = (entriesFor key q).tail
            rw [h]
  · refine ⟨fun h' => absurd h' hk, ?_⟩
    rw [add_preserves_other_entries key p fragment hk,
        add_preserves_other_entries key q fragment hk, h]

/-! ### The parts dictionary built from a list of fragments -/

theorem AssemblyPool.run_nil (pool : AssemblyPool) : pool.run [] = (pool, []) := rfl

theorem AssemblyPool.run_cons (pool : AssemblyPool) (f : Fragment) (fs : List Fragment) :
    pool.run (f :: fs)
      = (((pool.add f).2.run fs).1, (pool.add f).1 :: ((pool.add f).2.run fs).2) := rfl

theorem entriesFor_eq_nil_of_lookup_none (key : List Char) (pool : AssemblyPool)
    (h : lookupA key pool.assemblies = none) : entriesFor key pool = [] := by
  have hk := (lookupA_none_iff_keys key pool.assemblies).mp h
  unfold entriesFor
  rw [List.filter_eq_nil_iff]
  intro a ha
  simpa using hk a ha

theorem partsOf_append (done : List Fragment) (f : Fragment) :
    partsOf (done ++ [f]) = partsOf done ++ [(f.data_part, f)] := by
  simp [partsOf]

/-- A run of the pool is, for the fragments of one key, fully determined
by the entries stored under that key: the run from any pool agreeing
with a second pool on that key yields the same per-key outputs as the
run of only the key's fragments from the second pool. -/
theorem run_key_localize (key : List Char) :
    ∀ (msgs : List Fragment) (p pk : AssemblyPool),
      entriesFor key p = entriesFor key pk →
      outputsForKey key msgs (p.run msgs).2
          = (pk.run (msgs.filter (fun f => decide (keyOf f = key)))).2 ∧
      entriesFor key (p.run msgs).1
          = entriesFor key (pk.run (msgs.filter (fun f => decide (keyOf f = key)))).1 := by
  intro msgs
  induction msgs with
  | nil =>
    intro p pk h
    exact ⟨rfl, h⟩
  | cons f fs ih =>
    intro p pk h
    have hstep := add_congr_entriesFor key p pk f h
    by_cases hk : keyOf f = key
    · rw [List.filter_cons, if_pos (by simpa using hk)]
      rw [AssemblyPool.run_cons p f fs, AssemblyPool.run_cons pk f]
      have iht := ih (p.add f).2 (pk.add f).2 hstep.2
      constructor
      · show outputsForKey key (f :: fs) ((p.add f).1 :: ((p.add f).2.run fs).2) = _
        unfold outputsForKey
        rw [if_pos hk, hstep.1 hk]
        exact congrArg _ iht.1
      · exact iht.2
    · rw [List.filter_cons, if_neg (by simpa using hk)]
      rw [AssemblyPool.run_cons p f fs]
      have hpres : entriesFor key (p.add f).2 = entriesFor key pk :=
        (add_preserves_other_entries key p f hk).trans h
      have iht := ih (p.add f).2 pk hpres
      constructor
      · show outputsForKey key (f :: fs) ((p.add f).1 :: ((p.add f).2.run fs).2) = _
        unfold outputsForKey
        rw [if_neg hk]
        exact iht.1
      · exact iht.2

/-- Induction core for a run on the fragments of a single key: once the
assembly holds the fragments of `done`, feeding the remaining fragments
returns "incomplete" until the last one, which completes and removes the
assembly. -/
theorem run_pure_aux (key : List Char) (n : Nat) (ks : List Fragment) (part0 : Fragment)
    (hkey : ∀ f ∈ ks, keyOf f = key)
    (hnum : ∀ f ∈ ks, f.num_data_parts = n)
    (hn : 1 < n)
    (hnd : (ks.map Fragment.data_part).Nodup)
    (h0 : lookupA 0 (partsOf ks) = some part0) :
    ∀ (todo done : List Fragment), done ++ todo = ks → done ≠ [] → todo ≠ [] →
      done.length + todo.length = n →
      (AssemblyPool.run ⟨[(key, ⟨n, key, partsOf done⟩)]⟩ todo).2
          = List.replicate (todo.length - 1) (Except.ok none)
            ++ [Except.ok (some (part0.notification,
                  Assembly.join ⟨n, key, partsOf ks⟩,
                  part0.notification.wire_schema))] ∧
      (AssemblyPool.run ⟨[(key, ⟨n, key, partsOf done⟩)]⟩ todo).1 = ⟨[]⟩ := by
  intro todo
  induction todo with
  | nil => intro done _ _ habs _; exact absurd rfl habs
  | cons f rest ih =>
    intro done hsplit hdone _ hlen
    have hfmem : f ∈ ks := by
      rw [← hsplit]; exact List.mem_append_right done (List.mem_cons_self f rest)
    have hkf : makeKey f.notification = key := hkey f hfmem
    have h1 : f.num_data_parts ≠ 1 := by
      rw [hnum f hfmem]; omega
    have hnotin : f.data_part ∉ done.map Fragment.data_part := by
      have hnd2 : ((done ++ f :: rest).map Fragment.data_part).Nodup := by
        rw [hsplit]; exact hnd
      rw [List.map_append, List.map_cons] at hnd2
      have hdisj := (List.nodup_append.mp hnd2).2.2
      intro hmem
      exact (hdisj hmem) (List.mem_cons_self _ _)
    have hnew : lookupA f.data_part (partsOf done) = none :=
      lookupA_partsOf_none f.data_part done hnotin
    have hlookup : lookupA key [(key, (⟨n, key, partsOf done⟩ : Assembly))]
        = some ⟨n, key, partsOf done⟩ := by simp [lookupA]
    have hplen : (partsOf done).length = done.length := by simp [partsOf]
    cases rest with
    | nil =>
      -- the final fragment: the assembly completes
      have hksfull : done ++ [f] = ks := hsplit
      have hlenn : (partsOf done).length + 1 = n := by
        rw [hplen]; simpa using hlen
      have hasm2 : (⟨n, key, partsOf ks⟩ : Assembly)
          = { (⟨n, key, partsOf done⟩ : Assembly) with
              parts := partsOf done ++ [(f.data_part, f)] } := by
        rw [← partsOf_append, hksfull]
      have h0' : lookupA 0 (partsOf ks) = some part0 := h0
      have hadd := Assembly.add_complete ⟨n, key, partsOf done⟩ ⟨n, key, partsOf ks⟩ f part0
        (by simpa using hkf) (by simpa using hnew) hasm2 (by simpa using hlenn) h0'
      have hpadd := AssemblyPool.add_existing_complete
        ⟨[(key, ⟨n, key, partsOf done⟩)]⟩ f ⟨n, key, partsOf done⟩ ⟨n, key, partsOf ks⟩ _ h1
        (by rw [hkf]; exact hlookup) hadd
      rw [AssemblyPool.run_cons, hpadd]
      constructor
      · simp [AssemblyPool.run_nil]
      · simp [AssemblyPool.run_nil, hkf, removeA]
    | cons f2 rest2 =>
      -- an intermediate fragment: the assembly grows
      have hrest : (f2 :: rest2) ≠ ([] : List Fragment) := by simp
      have hlt : (partsOf done).length + 1 ≠ n := by
        rw [hplen]
        simp only [List.length_cons] at hlen
        omega
      have hasm2 : (⟨n, key, partsOf (done ++ [f])⟩ : Assembly)
          = { (⟨n, key, partsOf done⟩ : Assembly) with
              parts := partsOf done ++ [(f.data_part, f)] } := by
        rw [partsOf_append]
      have hadd := Assembly.add_store ⟨n, key, partsOf done⟩ ⟨n, key, partsOf (done ++ [f])⟩ f
        (by simpa using hkf) (by simpa using hnew) hasm2 (by simpa using hlt)
      have hpadd := AssemblyPool.add_existing_incomplete
        ⟨[(key, ⟨n, key, partsOf done⟩)]⟩ f ⟨n, key, partsOf done⟩ ⟨n, key, partsOf (done ++ [f])⟩
        h1 (by rw [hkf]; exact hlookup) hadd
      rw [AssemblyPool.run_cons, hpadd]
      have hupd : (⟨updateA (makeKey f.notification) (⟨n, key, partsOf (done ++ [f])⟩ : Assembly)
            [(key, ⟨n, key, partsOf done⟩)]⟩ : AssemblyPool)
          = ⟨[(key, ⟨n, key, partsOf (done ++ [f])⟩)]⟩ := by
        rw [hkf]
        simp [updateA]
      rw [hupd]
      have iht := ih (done ++ [f]) (by simpa using hsplit) (by simp) hrest
        (by simp only [List.length_append, List.length_cons, List.length_nil] at hlen ⊢; omega)
      constructor
      · show Except.ok none :: ((AssemblyPool.run _ (f2 :: rest2)).2) = _
        rw [iht.1]
        have hlen2 : (f :: f2 :: rest2).length - 1 = ((f2 :: rest2).length - 1) + 1 := by simp
        rw [hlen2, List.replicate_succ, List.cons_append]
      · exact iht.2

/-- Feeding exactly the fragments of one key (with `1 < n` parts, all
part indices distinct and covering `0..n-1`) to an empty pool yields
"incomplete" for every fragment but the last, and the joined result on
the last. -/
theorem run_pure_key (key : List Char) (n : Nat) (ks : List Fragment) (part0 : Fragment)
    (hkey : ∀ f ∈ ks, keyOf f = key)
    (hnum : ∀ f ∈ ks, f.num_data_parts = n)
    (hn : 1 < n)
    (hperm : (ks.map Fragment.data_part).Perm (List.range n))
    (h0 : lookupA 0 (partsOf ks) = some part0) :
    (AssemblyPool.run ⟨[]⟩ ks).2
        = List.replicate (n - 1) (Except.ok none)
          ++ [Except.ok (some (part0.notification, concatParts ks n,
               part0.notification.wire_schema))] ∧
    (AssemblyPool.run ⟨[]⟩ ks).1 = ⟨[]⟩ := by
  have hlen : ks.length = n := by
    have h := hperm.length_eq
    simpa using h
  have hnd : (ks.map Fragment.data_part).Nodup :=
    (hperm.nodup_iff).mpr (List.nodup_range n)
  cases ks with
  | nil =>
    exfalso
    simp at hlen
    omega
  | cons f1 ks2 =>
    have hm1 : f1 ∈ f1 :: ks2 := List.mem_cons_self f1 ks2
    have hkf : makeKey f1.notification = key := hkey f1 hm1
    have h1 : f1.num_data_parts ≠ 1 := by
      rw [hnum f1 hm1]; omega
    have hof : Assembly.ofFragment f1 = .ok ⟨n, key, partsOf [f1]⟩ := by
      unfold Assembly.ofFragment
      rw [if_pos (by rw [hnum f1 hm1]; exact hn)]
      rw [hnum f1 hm1, hkf]
      rfl
    have hcreate := AssemblyPool.add_create ⟨[]⟩ f1 ⟨n, key, partsOf [f1]⟩ h1 rfl hof
    rw [AssemblyPool.run_cons, hcreate]
    have hp1 : (⟨([] : List (List Char × Assembly))
          ++ [(makeKey f1.notification, ⟨n, key, partsOf [f1]⟩)]⟩ : AssemblyPool)
        = ⟨[(key, ⟨n, key, partsOf [f1]⟩)]⟩ := by
      rw [hkf]
      rfl
    rw [hp1]
    cases ks2 with
    | nil =>
      exfalso
      simp at hlen
      omega
    | cons f2 ks3 =>
      have haux := run_pure_aux key n (f1 :: f2 :: ks3) part0 hkey hnum hn hnd h0
        (f2 :: ks3) [f1] rfl (by simp) (by simp)
        (by simp only [List.length_cons, List.length_nil] at hlen ⊢; omega)
      constructor
      · show Except.ok none :: _ = _
        rw [haux.1]
        have h2 : n - 1 = ((f2 :: ks3).length - 1) + 1 := by
          simp only [List.length_cons] at hlen ⊢
          omega
        rw [h2, List.replicate_succ, List.cons_append,
            join_partsOf_eq_concatParts key n _ hperm]
      · exact haux.2

/-- C2: for a multi-part message whose fragments share one key, have
`num_data_parts = n > 1` and distinct part indices `0..n-1`, a run over
any interleaving with fragments of other keys returns "incomplete" for
the first `n-1` fragments of that key and, on the n-th, the payload
chunks concatenated in ascending `data_part` order together with the
notification and wire schema of part 0; afterwards the pool holds no
assembly for the key.  Other keys cannot interfere (the initial pool is
arbitrary as long as it has no entry for this key). -/
theorem assemblyPool_reassembles_per_key
    (pool : AssemblyPool) (msgs : List Fragment) (n : Nat) (key : List Char)
    (hn : 1 < n)
    (hkeynum : ∀ f ∈ msgs, keyOf f = key → f.num_data_parts = n)
    (hperm : ((msgs.filter (fun f => decide (keyOf f = key))).map Fragment.data_part).Perm
        (List.range n))
    (hfresh : lookupA key pool.assemblies = none) :
    ∃ f0, (msgs.filter (fun f => decide (keyOf f = key))).find?
        (fun f => decide (f.data_part = 0)) = some f0 ∧
      outputsForKey key msgs (pool.run msgs).2
        = List.replicate (n - 1) (Except.ok none)
          ++ [Except.ok (some (f0.notification,
                concatParts (msgs.filter (fun f => decide (keyOf f = key))) n,
                f0.notification.wire_schema))] ∧
      lookupA key (pool.run msgs).1.assemblies = none := by
  have hkey : ∀ f ∈ msgs.filter (fun f => decide (keyOf f = key)), keyOf f = key := by
    intro f hf
    have h := List.mem_filter.mp hf
    simpa using h.2
  have hnum : ∀ f ∈ msgs.filter (fun f => decide (keyOf f = key)), f.num_data_parts = n := by
    intro f hf
    have h := List.mem_filter.mp hf
    exact hkeynum f h.1 (by simpa using h.2)
  have h0mem : (0 : Nat) ∈ (msgs.filter (fun f => decide (keyOf f = key))).map
      Fragment.data_part :=
    hperm.mem_iff.mpr (List.mem_range.mpr (by omega))
  obtain ⟨part0, h0⟩ : ∃ p,
      lookupA 0 (partsOf (msgs.filter (fun f => decide (keyOf f = key)))) = some p := by
    cases hl0 : lookupA 0 (partsOf (msgs.filter (fun f => decide (keyOf f = key)))) with
    | none =>
      exfalso
      obtain ⟨f0, hf0mem, hf0dp⟩ := List.mem_map.mp h0mem
      have hcontra := (lookupA_none_iff_keys 0 _).mp hl0 (f0.data_part, f0)
        (List.mem_map_of_mem _ hf0mem)
      exact hcontra hf0dp
    | some p => exact ⟨p, rfl⟩
  have hpure := run_pure_key key n (msgs.filter (fun f => decide (keyOf f = key))) part0
    hkey hnum hn hperm h0
  have hloc := run_key_localize key msgs pool ⟨[]⟩
    (by rw [entriesFor_eq_nil_of_lookup_none key pool hfresh]; rfl)
  refine ⟨part0, ?_, ?_, ?_⟩
  · rw [← lookupA_partsOf]
    exact h0
  · rw [hloc.1, hpure.1]
  · have h2 : entriesFor key (pool.run msgs).1 = [] := by
      rw [hloc.2, hpure.2]
      rfl
    rw [lookupA_eq_entriesFor_head, h2]
    rfl

/-- C2 witness: a concrete two-part message interleaved with a
single-part message of a different key. -/
theorem assemblyPool_reassembles_per_key_witness :
    (c2msgs.filter (fun f => decide (keyOf f = c2key))).find?
        (fun f => decide (f.data_part = 0)) = some (demoFragment 0 2 [1, 2]) ∧
    outputsForKey c2key c2msgs (AssemblyPool.run ⟨[]⟩ c2msgs).2
      = List.replicate (2 - 1) (Except.ok none)
        ++ [Except.ok (some ((demoFragment 0 2 [1, 2]).notification,
              concatParts (c2msgs.filter (fun f => decide (keyOf f = c2key))) 2,
              (demoFragment 0 2 [1, 2]).notification.wire_schema))] ∧
    lookupA c2key (AssemblyPool.run ⟨[]⟩ c2msgs).1.assemblies = none := by
  obtain ⟨f0, h1, h2, h3⟩ := assemblyPool_reassembles_per_key ⟨[]⟩ c2msgs 2 c2key
    (by decide) (by decide) (by decide) (by decide)
  have hf0 : f0 = demoFragment 0 2 [1, 2] := by
    have hc : (c2msgs.filter (fun f => decide (keyOf f = c2key))).find?
        (fun f => decide (f.data_part = 0)) = some (demoFragment 0 2 [1, 2]) := by decide
    exact Option.some.inj (h1.symm.trans hc)
  subst hf0
  exact ⟨h1, h2, h3⟩

/-- C5: for an in-progress assembly, a second fragment with the same key
and an already-present `data_part` makes `AssemblyPool.add` raise the
duplicate-fragment error, and the pool (including the first-seen bytes
in the stored assembly) is observably unchanged. -/
theorem assembly_duplicate_fragment_rejected
    (pool : AssemblyPool) (fragment : Fragment) (asm : Assembly)
    (hn : fragment.num_data_parts ≠ 1)
    (hl : lookupA (keyOf fragment) pool.assemblies = some asm)
    (hid : keyOf fragment = asm.id)
    (hdup : (lookupA fragment.data_part asm.parts).isSome = true) :
    (pool.add fragment).1 = .error .duplicateFragment ∧
    ∀ k, lookupA k (pool.add fragment).2.assemblies = lookupA k pool.assemblies := by
  have hadd := Assembly.add_dup asm fragment hid hdup
  have hpadd := AssemblyPool.add_existing_error pool fragment asm asm .duplicateFragment hn hl hadd
  rw [hpadd]
  refine ⟨rfl, ?_⟩
  intro k
  exact lookupA_updateA_of_lookup_eq (makeKey fragment.notification) asm pool.assemblies hl k

/-- C5 witness: part 0 of 2 stored, the same part fed again. -/
theorem assembly_duplicate_fragment_rejected_witness :
    (c5pool.add (demoFragment 0 2 [9])).1 = .error .duplicateFragment ∧
    lookupA (keyOf (demoFragment 0 2 [9])) (c5pool.add (demoFragment 0 2 [9])).2.assemblies
      = lookupA (keyOf (demoFragment 0 2 [9])) c5pool.assemblies :=
  have h := assembly_duplicate_fragment_rejected c5pool (demoFragment 0 2 [9]) c5asm
    (by decide) (by decide) (by decide) (by decide)
  ⟨h.1, h.2 (keyOf (demoFragment 0 2 [9]))⟩

/-- C10 counterexample: a completed result returned through the
single-fragment path (`num_data_parts = 1`) does NOT clear the pool's
state for that key: the pool still holds the in-progress assembly, and
a later multi-part fragment with a repeated part index raises
`DuplicateFragment` instead of starting a fresh message. -/
theorem assemblyPool_completion_counterexample :
    keyOf c10frag2 = keyOf c10frag1 ∧
    (c10pool1.add c10frag2).1
      = .ok (some (c10frag2.notification, c10frag2.notification.data,
                   c10frag2.notification.wire_schema)) ∧
    lookupA (keyOf c10frag2) ((c10pool1.add c10frag2).2).assemblies ≠ none ∧
    1 < c10frag3.num_data_parts ∧ keyOf c10frag3 = keyOf c10frag2 ∧
    ((c10pool1.add c10frag2).2.add c10frag3).1 = .error .duplicateFragment := by
  decide

/-- C10 amended: after `AssemblyPool.add` returns a completed result for
a MULTI-part fragment (`num_data_parts ≠ 1`), the pool retains no state
for that key: a later fragment with that key and `num_data_parts > 1` is
treated as the first fragment of a brand-new message (fresh assembly,
incomplete result, no duplicate error). -/
theorem assemblyPool_completion_clears_key
    (pool : AssemblyPool) (fragment : Fragment) (result : Completed) (pool2 : AssemblyPool)
    (hn : fragment.num_data_parts ≠ 1)
    (hnd : (pool.assemblies.map Prod.fst).Nodup)
    (hadd : pool.add fragment = (.ok (some result), pool2)) :
    lookupA (keyOf fragment) pool2.assemblies = none ∧
    ∀ fragment2, keyOf fragment2 = keyOf fragment → 1 < fragment2.num_data_parts →
      (pool2.add fragment2).1 = .ok none ∧
      lookupA (keyOf fragment) ((pool2.add fragment2).2).assemblies
        = some ⟨fragment2.num_data_parts, keyOf fragment,
                [(fragment2.data_part, fragment2)]⟩ := by
  cases hl : lookupA (makeKey fragment.notification) pool.assemblies with
  | none =>
    exfalso
    cases hof : Assembly.ofFragment fragment with
    | ok asm =>
      rw [AssemblyPool.add_create pool fragment asm hn hl hof] at hadd
      simp at hadd
    | error e =>
      rw [AssemblyPool.add_create_fail pool fragment e hn hl hof] at hadd
      simp at hadd
  | some asm =>
    rcases hasmadd : asm.add fragment with ⟨r, asm2⟩
    rcases r with e | opt
    · exfalso
      rw [AssemblyPool.add_existing_error pool fragment asm asm2 e hn hl hasmadd] at hadd
      simp at hadd
    · rcases opt with _ | result'
      · exfalso
        rw [AssemblyPool.add_existing_incomplete pool fragment asm asm2 hn hl hasmadd] at hadd
        simp at hadd
      · rw [AssemblyPool.add_existing_complete pool fragment asm asm2 result' hn hl hasmadd]
          at hadd
        rw [Prod.mk.injEq] at hadd
        obtain ⟨_, hpool⟩ := hadd
        subst hpool
        have hclear : lookupA (makeKey fragment.notification)
            (removeA (makeKey fragment.notification) pool.assemblies) = none :=
          lookupA_removeA_self_of_nodup _ pool.assemblies hnd
        refine ⟨hclear, ?_⟩
        intro f2 hk2 hn2
        have h12 : f2.num_data_parts ≠ 1 := by omega
        have hkk : makeKey f2.notification = makeKey fragment.notification := hk2
        have hl2 : lookupA (makeKey f2.notification)
            (⟨removeA (makeKey fragment.notification) pool.assemblies⟩ :
              AssemblyPool).assemblies = none := by
          rw [hkk]
          exact hclear
        have hof2 : Assembly.ofFragment f2
            = .ok ⟨f2.num_data_parts, makeKey f2.notification, [(f2.data_part, f2)]⟩ := by
          unfold Assembly.ofFragment
          rw [if_pos hn2]
        have hc := AssemblyPool.add_create
          ⟨removeA (makeKey fragment.notification) pool.assemblies⟩ f2
          ⟨f2.num_data_parts, makeKey f2.notification, [(f2.data_part, f2)]⟩ h12 hl2 hof2
        rw [hc]
        refine ⟨rfl, ?_⟩
        show lookupA (makeKey fragment.notification)
            (removeA (makeKey fragment.notification) pool.assemblies
              ++ [(makeKey f2.notification,
                   (⟨f2.num_data_parts, makeKey f2.notification,
                     [(f2.data_part, f2)]⟩ : Assembly))])
          = some ⟨f2.num_data_parts, makeKey fragment.notification, [(f2.data_part, f2)]⟩
        rw [lookupA_append_right_of_none _ _ _ hclear, hkk]
        simp [lookupA]

/-- C10 amended-claim witness: completing a two-part message clears the
key, and a later three-part fragment with the same key starts fresh. -/
theorem assemblyPool_completion_clears_key_witness :
    lookupA (keyOf (demoFragment 1 2 [2])) (⟨[]⟩ : AssemblyPool).assemblies = none ∧
    ((⟨[]⟩ : AssemblyPool).add c10frag3).1 = .ok none :=
  have h := assemblyPool_completion_clears_key c10wpool (demoFragment 1 2 [2])
    (demoNotification [1], [1, 2], ['u', '8']) ⟨[]⟩ (by decide) (by decide) (by decide)
  ⟨h.1, (h.2 c10frag3 (by decide) (by decide)).1⟩

/-- C6: `Event.getId` computes the identifier deterministically from
`(senderId, sequenceNumber)` on first access (two events with equal
fields receive equal ids), returns the cached value on every later
access, and fails with the incomplete-event error when called while
senderId or sequenceNumber is still unset. -/
theorem event_getId_deterministic_cached_incomplete :
    (∀ (a b : Event) (sid sq : Nat),
      a.idCache = none → b.idCache = none →
      a.senderId = some sid → b.senderId = some sid →
      a.sequenceNumber = some sq → b.sequenceNumber = some sq →
      a.getId = .ok (uuid5 sid (format08x sq), { a with idCache := some (uuid5 sid (format08x sq)) })
        ∧ b.getId = .ok (uuid5 sid (format08x sq), { b with idCache := some (uuid5 sid (format08x sq)) })) ∧
    (∀ (e e2 : Event) (v : Nat), e.getId = .ok (v, e2) → e2.getId = .ok (v, e2)) ∧
    (∀ e : Event, e.idCache = none → (e.senderId = none ∨ e.sequenceNumber = none) →
      e.getId = .error .incompleteEvent) := by
  refine ⟨?_, ?_, ?_⟩
  · intro a b sid sq ha hb has hbs haq hbq
    constructor
    · unfold Event.getId
      rw [ha, has, haq]
    · unfold Event.getId
      rw [hb, hbs, hbq]
  · intro e e2 v h
    unfold Event.getId at h ⊢
    cases hc : e.idCache with
    | some w =>
      rw [hc] at h
      rw [Except.ok.injEq, Prod.mk.injEq] at h
      obtain ⟨rfl, rfl⟩ := h
      rw [hc]
    | none =>
      rw [hc] at h
      cases hs : e.senderId with
      | none =>
        cases hq : e.sequenceNumber with
        | none => rw [hs, hq] at h; exact absurd h (by simp)
        | some sq => rw [hs, hq] at h; exact absurd h (by simp)
      | some sid =>
        cases hq : e.sequenceNumber with
        | none => rw [hs, hq] at h; exact absurd h (by simp)
        | some sq =>
          rw [hs, hq] at h
          rw [Except.ok.injEq, Prod.mk.injEq] at h
          obtain ⟨rfl, rfl⟩ := h
          rfl
  · intro e hc hor
    unfold Event.getId
    rw [hc]
    rcases hor with h | h
    · cases hq : e.sequenceNumber with
      | none => rw [h]
      | some sq => rw [h]
    · cases hs : e.senderId with
      | none => rfl
      | some sid => rw [h]

/-- C6 witness: a concrete event: second access returns the cache, and
an event with unset senderId fails. -/
theorem event_getId_witness :
    c6cached.getId = .ok (uuid5 3 (format08x 5), c6cached) ∧
    ({ c6event with senderId := none } : Event).getId = .error .incompleteEvent :=
  ⟨event_getId_deterministic_cached_incomplete.2.1 c6event c6cached (uuid5 3 (format08x 5)) rfl,
   event_getId_deterministic_cached_incomplete.2.2 { c6event with senderId := none } rfl
     (Or.inl rfl)⟩

/-- C7 counterexample: two events that agree on everything except their
causes sets are equal under the implemented `Event.__eq__` even though
the claimed equality (which takes the causes set into account) does not
hold: equality does not consider causes (this version's Event has no
causes field at all). -/
theorem event_eq_ignores_causes :
    eventEq c7a.toEvent c7b.toEvent = true ∧ ¬ specEventAgrees c7a c7b := by
  constructor
  · decide
  · intro h
    exact absurd h.2.2.2.2.2.1 (by decide)

/-- C7 amended: `a == b` holds if and only if `a` and `b` agree on
sequenceNumber, scope, senderId, dataType, data and metaData; the
causes set does not participate (the Event of this version carries no
causes). -/
theorem event_eq_iff (a b : Event) :
    eventEq a b = true ↔
      (a.sequenceNumber = b.sequenceNumber ∧ a.scope = b.scope ∧ a.senderId = b.senderId
        ∧ a.type = b.type ∧ a.data = b.data ∧ metaDataEq a.metaData b.metaData = true) := by
  unfold eventEq
  simp [Bool.and_eq_true, decide_eq_true_eq, and_assoc]

/-- C7 witness: the amended equivalence evaluated at two concrete
events. -/
theorem event_eq_iff_witness :
    eventEq demoEvent c6event = true ↔
      (demoEvent.sequenceNumber = c6event.sequenceNumber ∧ demoEvent.scope = c6event.scope
        ∧ demoEvent.senderId = c6event.senderId ∧ demoEvent.type = c6event.type
        ∧ demoEvent.data = c6event.data
        ∧ metaDataEq demoEvent.metaData c6event.metaData = true) :=
  event_eq_iff demoEvent c6event

theorem publishEvent_ok (informer : Informer) (event e2 : Event) (inf2 : Informer)
    (h : informer.publishEvent event = .ok (e2, inf2)) :
    e2 = { event with sequenceNumber := some informer.sequenceNumber,
                      senderId := some informer.participantId }
      ∧ inf2 = { informer with sequenceNumber := informer.sequenceNumber + 1 } := by
  unfold Informer.publishEvent at h
  by_cases h1 : event.scope ≠ informer.scope
  · rw [if_pos h1] at h
    exact absurd h (by simp)
  · rw [if_neg h1] at h
    by_cases h2 : event.type ≠ informer.type
    · rw [if_pos h2] at h
      exact absurd h (by simp)
    · rw [if_neg h2] at h
      rw [Except.ok.injEq, Prod.mk.injEq] at h
      exact ⟨h.1.symm, h.2.symm⟩

theorem publishAll_accepted_range :
    ∀ (events : List Event) (informer : Informer),
      (acceptedEvents (informer.publishAll events).2).map Event.sequenceNumber
        = (List.range' informer.sequenceNumber
            (acceptedEvents (informer.publishAll events).2).length).map some := by
  intro events
  induction events with
  | nil =>
    intro informer
    simp [Informer.publishAll, acceptedEvents]
  | cons e rest ih =>
    intro informer
    cases hp : informer.publishEvent e with
    | ok pair =>
      rcases pair with ⟨e2, inf2⟩
      obtain ⟨he2, hinf2⟩ := publishEvent_ok informer e e2 inf2 hp
      show (acceptedEvents (informer.publishAll (e :: rest)).2).map Event.sequenceNumber = _
      unfold Informer.publishAll
      rw [hp]
      simp only [acceptedEvents, List.filterMap_cons]
      have hseq : e2.sequenceNumber = some informer.sequenceNumber := by
        rw [he2]
      have hinfseq : inf2.sequenceNumber = informer.sequenceNumber + 1 := by
        rw [hinf2]
      have iht := ih inf2
      simp only [acceptedEvents] at iht
      rw [List.map_cons, hseq, iht, hinfseq, List.length_cons, List.range'_succ,
          List.map_cons]
    | error err =>
      show (acceptedEvents (informer.publishAll (e :: rest)).2).map Event.sequenceNumber = _
      unfold Informer.publishAll
      rw [hp]
      simp only [acceptedEvents, List.filterMap_cons]
      exact ih informer

/-- C8: an event accepted by `publishEvent` gets its sequenceNumber from
the informer's counter (overwriting any caller-supplied value) and its
senderId from the informer, the counter increments by one per accepted
event, and over any sequence of calls the assigned numbers are the
consecutive values `c, c+1, ...` of the counter — `0, 1, 2, ...` for a
fresh informer (counter 0, as set in `__init__`). -/
theorem informer_assigns_sequence_numbers :
    (∀ (informer : Informer) (event e2 : Event) (inf2 : Informer),
      informer.publishEvent event = .ok (e2, inf2) →
      e2.sequenceNumber = some informer.sequenceNumber
        ∧ e2.senderId = some informer.participantId
        ∧ inf2.sequenceNumber = informer.sequenceNumber + 1) ∧
    (∀ (informer : Informer) (events : List Event),
      (acceptedEvents (informer.publishAll events).2).map Event.sequenceNumber
        = (List.range' informer.sequenceNumber
            (acceptedEvents (informer.publishAll events).2).length).map some) ∧
    (∀ (scope : List (List Char)) (typ : Option Nat) (pid : Nat) (events : List Event),
      (acceptedEvents ((⟨scope, typ, pid, 0⟩ : Informer).publishAll events).2).map
          Event.sequenceNumber
        = (List.range
            (acceptedEvents ((⟨scope, typ, pid, 0⟩ : Informer).publishAll events).2).length).map
            some) := by
  refine ⟨?_, ?_, ?_⟩
  · intro informer event e2 inf2 h
    obtain ⟨he2, hinf2⟩ := publishEvent_ok informer event e2 inf2 h
    refine ⟨?_, ?_, ?_⟩
    · rw [he2]
    · rw [he2]
    · rw [hinf2]
  · intro informer events
    exact publishAll_accepted_range events informer
  · intro scope typ pid events
    rw [List.range_eq_range']
    exact publishAll_accepted_range events ⟨scope, typ, pid, 0⟩

/-- C8 witness: a fresh informer publishing two matching events around a
rejected one assigns 0 and 1; the caller-supplied sequence number 99 on
the first event is overwritten with 0. -/
theorem informer_assigns_sequence_numbers_witness :
    ((acceptedEvents (c8informer.publishAll c8events).2).map Event.sequenceNumber
      = (List.range
          (acceptedEvents (c8informer.publishAll c8events).2).length).map some) ∧
    ({ c8e1 with sequenceNumber := some 0, senderId := some 42 } : Event).sequenceNumber
        = some c8informer.sequenceNumber
      ∧ ({ c8e1 with sequenceNumber := some 0, senderId := some 42 } : Event).senderId
        = some c8informer.participantId
      ∧ ({ c8informer with sequenceNumber := 1 } : Informer).sequenceNumber
        = c8informer.sequenceNumber + 1 :=
  ⟨informer_assigns_sequence_numbers.2.2 [['s']] (some 1) 42 c8events,
   informer_assigns_sequence_numbers.1 c8informer c8e1
     { c8e1 with sequenceNumber := some 0, senderId := some 42 }
     { c8informer with sequenceNumber := 1 } rfl⟩

theorem splitOn_ne_nil (sep : Char) : ∀ l : List Char, splitOn sep l ≠ [] := by
  intro l
  cases l with
  | nil => simp [splitOn]
  | cons c rest =>
    simp only [splitOn]
    by_cases h : c = sep
    · simp [h]
    · rw [if_neg h]
      cases splitOn sep rest <;> simp

theorem splitOn_cons_sep (sep : Char) (l : List Char) :
    splitOn sep (sep :: l) = [] :: splitOn sep l := by
  simp [splitOn]

theorem splitOn_word (sep : Char) :
    ∀ (w rest : List Char), (∀ c ∈ w, c ≠ sep) →
      splitOn sep (w ++ sep :: rest) = w :: splitOn sep rest := by
  intro w
  induction w with
  | nil =>
    intro rest _
    simp [splitOn]
  | cons c w ih =>
    intro rest hw
    have hc : c ≠ sep := hw c (List.mem_cons_self c w)
    simp only [List.cons_append, splitOn]
    rw [if_neg hc, List.append_eq, ih rest (fun x hx => hw x (List.mem_cons_of_mem c hx))]

theorem scopeToString_eq (components : List (List Char)) :
    scopeToString components = '/' :: flatSlash components := by
  unfold scopeToString
  have h : ∀ (cs : List (List Char)) (init : List Char),
      cs.foldl (fun string com => string ++ com ++ ['/']) init = init ++ flatSlash cs := by
    intro cs
    induction cs with
    | nil => intro init; simp [flatSlash]
    | cons c cs ih =>
      intro init
      simp only [List.foldl_cons, flatSlash]
      rw [ih]
      simp [List.append_assoc]
  rw [h]
  rfl

theorem flatSlash_nil_or_ends_sep (components : List (List Char)) :
    flatSlash components = [] ∨ ∃ l, flatSlash components = l ++ ['/'] := by
  induction components with
  | nil => exact Or.inl rfl
  | cons c cs ih =>
    right
    rcases ih with h | ⟨l, h⟩
    · exact ⟨c, by simp [flatSlash, h]⟩
    · exact ⟨c ++ '/' :: l, by simp [flatSlash, h]⟩

theorem scopeToString_getLast (components : List (List Char)) :
    (scopeToString components).getLast? = some '/' := by
  rw [scopeToString_eq]
  rcases flatSlash_nil_or_ends_sep components with h | ⟨l, h⟩
  · rw [h]
    rfl
  · rw [h]
    show (('/' :: l) ++ ['/']).getLast? = some '/'
    rw [List.getLast?_concat]

theorem splitOn_flatSlash (components : List (List Char))
    (hvalid : ∀ com ∈ components, ∀ c ∈ com, c ≠ '/') :
    splitOn '/' (flatSlash components) = components ++ [[]] := by
  induction components with
  | nil => rfl
  | cons c cs ih =>
    show splitOn '/' (c ++ '/' :: flatSlash cs) = _
    rw [splitOn_word '/' c (flatSlash cs) (hvalid c (List.mem_cons_self c cs)),
        ih (fun com hcom => hvalid com (List.mem_cons_of_mem c hcom))]
    rfl

theorem parseScope_ok_valid (s : List Char) (components : List (List Char))
    (h : parseScope s = .ok components) :
    ∀ com ∈ components, (!com.isEmpty && com.all isScopeComponentChar) = true := by
  simp only [parseScope] at h
  split_ifs at h <;>
    first
      | exact absurd h (fun hc => Except.noConfusion hc)
      | (rw [Except.ok.injEq] at h
         subst h
         intro com hcom
         exact List.all_eq_true.mp (by assumption) com hcom)

theorem parse_toString_of_valid (components : List (List Char))
    (hvalid : ∀ com ∈ components, (!com.isEmpty && com.all isScopeComponentChar) = true) :
    parseScope (scopeToString components) = .ok components := by
  have hnoslash : ∀ com ∈ components, ∀ c ∈ com, c ≠ '/' := by
    intro com hcom c hc hcs
    have hv := hvalid com hcom
    rw [Bool.and_eq_true] at hv
    have hall := List.all_eq_true.mp hv.2 c hc
    rw [hcs] at hall
    exact absurd hall (by decide)
  have hlast := scopeToString_getLast components
  have hlast2 : ('/' :: flatSlash components).getLast? = some '/' := by
    rw [← scopeToString_eq]
    exact hlast
  have hsplit : splitOn '/' ('/' :: flatSlash components) = [] :: (components ++ [[]]) := by
    rw [splitOn_cons_sep, splitOn_flatSlash components hnoslash]
  simp only [parseScope, scopeToString_eq]
  rw [if_neg (by simp)]
  have hnorm : (if ('/' :: flatSlash components).getLast? ≠ some '/'
        then ('/' :: flatSlash components) ++ ['/'] else ('/' :: flatSlash components))
      = '/' :: flatSlash components := by
    rw [if_neg (by rw [hlast2]; simp)]
  rw [hnorm, hsplit]
  rw [if_neg (by simp)]
  rw [if_neg (by simp)]
  have hlastraw : (([] :: (components ++ [[]])) : List (List Char)).getLast? = some [] := by
    show ((([] :: components) ++ [[]] : List (List Char))).getLast? = some []
    rw [List.getLast?_concat]
  rw [if_neg (by rw [hlastraw]; simp)]
  have hcomps : ((([] : List Char) :: (components ++ [[]])).drop 1).dropLast = components := by
    simp
  rw [hcomps]
  rw [if_pos (List.all_eq_true.mpr hvalid)]

/-- C9: for every string accepted by the `Scope` constructor, parsing
the canonical string form of the parsed scope succeeds and yields a
scope equal (under `Scope.__eq__`) to the first parse:
`Scope(Scope(s).toString()) == Scope(s)`. -/
theorem scope_parse_toString_roundtrip (s : List Char) (components : List (List Char))
    (h : parseScope s = .ok components) :
    ∃ components2, parseScope (scopeToString components) = .ok components2 ∧
      scopeEq components2 components = true :=
  ⟨components, parse_toString_of_valid components (parseScope_ok_valid s components h),
   by simp [scopeEq]⟩

/-- C9 witness: the scope string `"/a/b"` (without trailing slash,
exercising normalization). -/
theorem scope_parse_toString_roundtrip_witness :
    parseScope (scopeToString [['a'], ['b']]) = .ok [['a'], ['b']] ∧
    scopeEq [['a'], ['b']] [['a'], ['b']] = true := by
  obtain ⟨c2, h1, h2⟩ := scope_parse_toString_roundtrip ['/', 'a', '/', 'b'] [['a'], ['b']]
    (by decide)
  have hc : c2 = [['a'], ['b']] := by
    have hd : parseScope (scopeToString [['a'], ['b']]) = .ok [['a'], ['b']] := by decide
    have := h1.symm.trans hd
    rw [Except.ok.injEq] at this
    exact this
  subst hc
  exact ⟨h1, h2⟩

theorem getElem?_set_self_of_some {α : Type} (l : List α) (n : Nat) (a b : α)
    (h : l[n]? = some b) : (l.set n a)[n]? = some a := by
  have hlt : n < l.length := (List.getElem?_eq_some_iff.mp h).1
  simp [List.getElem?_set_self', hlt]

theorem countP_set_add {α : Type} (p : α → Bool) :
    ∀ (l : List α) (n : Nat) (old new : α), l[n]? = some old →
      (l.set n new).countP p + (if p old then 1 else 0)
        = l.countP p + (if p new then 1 else 0) := by
  intro l
  induction l with
  | nil => intro n old new h; simp at h
  | cons x xs ih =>
    intro n old new h
    cases n with
    | zero =>
      obtain rfl : x = old := by simpa using h
      show (new :: xs).countP p + _ = _
      simp only [List.countP_cons]
      omega
    | succ m =>
      have h' : xs[m]? = some old := by simpa using h
      show (x :: xs.set m new).countP p + _ = _
      simp only [List.countP_cons]
      have hih := ih m old new h'
      omega

theorem two_engaged_le_countP {α : Type} (p : α → Bool) :
    ∀ (l : List α) (n m : Nat) (x y : α), l[n]? = some x → l[m]? = some y → n ≠ m →
      p x = true → p y = true → 2 ≤ l.countP p := by
  intro l
  induction l with
  | nil => intro n m x y h; simp at h
  | cons z zs ih =>
    intro n m x y hn hm hnm hx hy
    cases n with
    | zero =>
      cases m with
      | zero => exact absurd rfl hnm
      | succ m' =>
        obtain rfl : z = x := by simpa using hn
        have hy' : y ∈ zs := List.getElem?_mem (by simpa using hm)
        have hpos : 0 < zs.countP p := List.countP_pos_iff.mpr ⟨y, hy', hy⟩
        rw [List.countP_cons]
        simp only [hx, if_pos]
        omega
    | succ n' =>
      cases m with
      | zero =>
        obtain rfl : z = y := by simpa using hm
        have hx' : x ∈ zs := List.getElem?_mem (by simpa using hn)
        have hpos : 0 < zs.countP p := List.countP_pos_iff.mpr ⟨x, hx', hx⟩
        rw [List.countP_cons]
        simp only [hy, if_pos]
        omega
      | succ m' =>
        have hih := ih n' m' x y (by simpa using hn) (by simpa using hm) (by omega) hx hy
        rw [List.countP_cons]
        omega

theorem filterMap_of_unique_pos {α β : Type} (f : α → Option β) (p : α → Bool)
    (hfp : ∀ x, f x ≠ none → p x = true) :
    ∀ (l : List α) (n : Nat) (w : α), l[n]? = some w → l.countP p ≤ 1 → p w = true →
      l.filterMap f = (f w).toList := by
  intro l
  induction l with
  | nil => intro n w h; simp at h
  | cons z zs ih =>
    intro n w hn hcount hw
    cases n with
    | zero =>
      obtain rfl : z = w := by simpa using hn
      have htail : zs.countP p = 0 := by
        rw [List.countP_cons] at hcount
        simp only [hw, if_pos] at hcount
        omega
      have hnil : zs.filterMap f = [] := by
        rw [List.filterMap_eq_nil_iff]
        intro a ha
        by_contra hne
        have h1 := hfp a hne
        have h2 := List.countP_eq_zero.mp htail a ha
        exact h2 h1
      cases hfz : f z <;> simp [List.filterMap_cons, hfz, hnil]
    | succ n' =>
      have hn' : zs[n']? = some w := by simpa using hn
      have hwmem : w ∈ zs := List.getElem?_mem hn'
      have hpos : 0 < zs.countP p := List.countP_pos_iff.mpr ⟨w, hwmem, hw⟩
      have hz : p z = false := by
        by_contra hzz
        rw [List.countP_cons] at hcount
        simp only [Bool.not_eq_false] at hzz
        simp only [hzz, if_pos] at hcount
        omega
      have hfz : f z = none := by
        by_contra hne
        have h1 := hfp z hne
        rw [h1] at hz
        exact Bool.noConfusion hz
      have hcount' : zs.countP p ≤ 1 := by
        rw [List.countP_cons] at hcount
        omega
      simp only [List.filterMap_cons, hfz]
      exact ih n' w hn' hcount' hw

theorem filterMap_set_congr {α β : Type} (f : α → Option β) :
    ∀ (l : List α) (n : Nat) (old new : α), l[n]? = some old → f old = f new →
      (l.set n new).filterMap f = l.filterMap f := by
  intro l
  induction l with
  | nil => intro n old new h; simp at h
  | cons z zs ih =>
    intro n old new hn hf
    cases n with
    | zero =>
      obtain rfl : z = old := by simpa using hn
      show (new :: zs).filterMap f = _
      simp only [List.filterMap_cons, ← hf]
    | succ n' =>
      show (z :: zs.set n' new).filterMap f = _
      simp only [List.filterMap_cons]
      rw [ih n' old new (by simpa using hn) hf]

theorem pushToQueues_length (m : Msg) (registered : List Nat) :
    ∀ (regs : List Reg) (k : Nat), (pushToQueues m registered k regs).length = regs.length := by
  intro regs
  induction regs with
  | nil => intro k; rfl
  | cons r rest ih => intro k; simp [pushToQueues, ih]

theorem pushToQueues_getElem (m : Msg) (registered : List Nat) :
    ∀ (regs : List Reg) (k j : Nat),
      (pushToQueues m registered k regs)[j]?
        = (regs[j]?).map (fun r =>
            if (k + j) ∈ registered then { r with queue := r.queue ++ [m] } else r) := by
  intro regs
  induction regs with
  | nil => intro k j; simp [pushToQueues]
  | cons r rest ih =>
    intro k j
    cases j with
    | zero => simp [pushToQueues]
    | succ j' =>
      simp only [pushToQueues, List.getElem?_cons_succ]
      rw [ih (k + 1) j']
      have hkj : k + 1 + j' = k + (j' + 1) := by omega
      rw [hkj]

/-- Steps that neither change any processing flag nor any worker's
engagement preserve the structural invariant. -/
theorem countP_set_engaged (j : Nat) (ws : List WPhase) (n : Nat) (old new : WPhase)
    (h : ws[n]? = some old) (heq : engagedWith j old = engagedWith j new) :
    (ws.set n new).countP (engagedWith j) = ws.countP (engagedWith j) := by
  have hadd := countP_set_add (engagedWith j) ws n old new h
  rw [heq] at hadd
  omega

theorem dinv_aux (s s2 : PoolState)
    (hreg : s2.registered = s.registered)
    (hlen : s2.regs.length = s.regs.length)
    (hproc : ∀ j : Nat, (s2.regs[j]?).map Reg.processing = (s.regs[j]?).map Reg.processing)
    (hcount : ∀ j : Nat, s2.workers.countP (engagedWith j) = s.workers.countP (engagedWith j))
    (hmem : ∀ w ∈ s2.workers, ∀ j : Nat, engagedWith j w = true → j < s.regs.length)
    (hinv : DInv s) :
    DInv s2 := by
  obtain ⟨h1, h2, h3, h4⟩ := hinv
  refine ⟨?_, ?_, by rw [hreg]; exact h3, ?_⟩
  · intro w hw j hj
    rw [hlen]
    exact hmem w hw j hj
  · intro j r hr
    have hp := hproc j
    rw [hr] at hp
    cases hsr : s.regs[j]? with
    | none => rw [hsr] at hp; exact absurd hp (by simp)
    | some r0 =>
      rw [hsr] at hp
      have hpp : r.processing = r0.processing := by simpa using hp
      have hor := h2 j r0 hsr
      rw [hcount j, hpp]
      exact hor
  · intro i hi
    rw [hlen]
    exact h4 i (hreg ▸ hi)

/-- Every step of the system preserves the structural invariant
(including callback failures and unregister calls). -/
theorem dinv_step (filt : Nat → Msg → Bool) (l : PoolLabel) (s s2 : PoolState)
    (hinv : DInv s) (happ : applyLabel filt l s = some s2) : DInv s2 := by
  obtain ⟨h1, h2, h3, h4⟩ := hinv
  cases l with
  | push m =>
    simp only [applyLabel] at happ
    obtain rfl := Option.some.inj happ
    refine dinv_aux s _ rfl (pushToQueues_length m s.registered s.regs 0) ?_ (fun j => rfl)
      (fun w hw j hj => h1 w hw j hj) ⟨h1, h2, h3, h4⟩
    intro j
    show ((pushToQueues m s.registered 0 s.regs)[j]?).map Reg.processing
        = (s.regs[j]?).map Reg.processing
    rw [pushToQueues_getElem]
    cases hr : s.regs[j]? with
    | none => rfl
    | some r =>
      simp only [Option.map_some, Nat.zero_add]
      by_cases hj : j ∈ s.registered <;> simp [hj]
  | claim w i =>
    simp only [applyLabel] at happ
    split at happ <;> try exact Option.noConfusion happ
    rename_i r hw hr
    split at happ <;> try exact Option.noConfusion happ
    rename_i hcond
    obtain ⟨hmemreg, hproc0, hqne⟩ := hcond
    obtain rfl := Option.some.inj happ
    have hilt : i < s.regs.length := (List.getElem?_eq_some_iff.mp hr).1
    have hcountz : s.workers.countP (engagedWith i) = 0 := by
      obtain ⟨hiff, hle⟩ := h2 i r hr
      have hne1 : ¬ s.workers.countP (engagedWith i) = 1 := by
        intro hc
        have := hiff.mpr hc
        rw [hproc0] at this
        exact Bool.noConfusion this
      omega
    refine ⟨?_, ?_, h3, ?_⟩
    · intro w2 hw2 j hj
      show j < (s.regs.set i _).length
      rw [List.length_set]
      rcases List.mem_or_eq_of_mem_set hw2 with hmem | rfl
      · exact h1 w2 hmem j hj
      · have hij : i = j := by simpa [engagedWith] using hj
        exact hij ▸ hilt
    · intro j r2 hr2
      have hcadd := countP_set_add (engagedWith j) s.workers w WPhase.idle (.claimed i) hw
      have h0 : (if engagedWith j WPhase.idle = true then 1 else 0) = 0 := by
        simp [engagedWith]
      rw [h0] at hcadd
      by_cases hji : j = i
      · subst hji
        rw [getElem?_set_self_of_some _ _ _ _ hr] at hr2
        obtain rfl := Option.some.inj hr2
        have h1' : (if engagedWith j (WPhase.claimed j) = true then 1 else 0) = 1 := by
          simp [engagedWith]
        rw [h1'] at hcadd
        refine ⟨⟨fun _ => ?_, fun _ => rfl⟩, ?_⟩
        · show (s.workers.set w (WPhase.claimed j)).countP (engagedWith j) = 1
          omega
        · show (s.workers.set w (WPhase.claimed j)).countP (engagedWith j) ≤ 1
          omega
      · have hij : i ≠ j := fun h => hji h.symm
        have h1' : (if engagedWith j (WPhase.claimed i) = true then 1 else 0) = 0 := by
          simp [engagedWith, hij]
        rw [h1'] at hcadd
        rw [List.getElem?_set_ne hij] at hr2
        obtain ⟨hiff, hle⟩ := h2 j r2 hr2
        have hceq : (s.workers.set w (.claimed i)).countP (engagedWith j)
            = s.workers.countP (engagedWith j) := by omega
        exact ⟨by rw [hceq]; exact hiff, by rw [hceq]; exact hle⟩
    · intro j hj
      show j < (s.regs.set i _).length
      rw [List.length_set]
      exact h4 j hj
  | pop w =>
    simp only [applyLabel] at happ
    split at happ <;> try exact Option.noConfusion happ
    rename_i i hw
    split at happ <;> try exact Option.noConfusion happ
    rename_i r hr
    split at happ <;> try exact Option.noConfusion happ
    rename_i m rest hq
    obtain rfl := Option.some.inj happ
    have hilt : i < s.regs.length := (List.getElem?_eq_some_iff.mp hr).1
    refine dinv_aux s _ rfl (by rw [List.length_set]) ?_ ?_ ?_ ⟨h1, h2, h3, h4⟩
    · intro j
      by_cases hji : j = i
      · subst hji
        rw [getElem?_set_self_of_some _ _ _ _ hr, hr]
        rfl
      · rw [List.getElem?_set_ne (fun h => hji h.symm)]
    · intro j
      exact countP_set_engaged j s.workers w _ _ hw (by simp [engagedWith])
    · intro w2 hw2 j hj
      rcases List.mem_or_eq_of_mem_set hw2 with hmem | rfl
      · exact h1 w2 hmem j hj
      · have hij : i = j := by simpa [engagedWith] using hj
        exact hij ▸ hilt
  | filterAccept w =>
    simp only [applyLabel] at happ
    split at happ <;> try exact Option.noConfusion happ
    rename_i i m hw
    split at happ <;> try exact Option.noConfusion happ
    rename_i r hr
    split at happ <;> try exact Option.noConfusion happ
    obtain rfl := Option.some.inj happ
    have hilt : i < s.regs.length := (List.getElem?_eq_some_iff.mp hr).1
    refine dinv_aux s _ rfl (by rw [List.length_set]) ?_ ?_ ?_ ⟨h1, h2, h3, h4⟩
    · intro j
      by_cases hji : j = i
      · subst hji
        rw [getElem?_set_self_of_some _ _ _ _ hr, hr]
        rfl
      · rw [List.getElem?_set_ne (fun h => hji h.symm)]
    · intro j
      exact countP_set_engaged j s.workers w _ _ hw (by simp [engagedWith])
    · intro w2 hw2 j hj
      rcases List.mem_or_eq_of_mem_set hw2 with hmem | rfl
      · exact h1 w2 hmem j hj
      · have hij : i = j := by simpa [engagedWith] using hj
        exact hij ▸ hilt
  | filterReject w =>
    simp only [applyLabel] at happ
    split at happ <;> try exact Option.noConfusion happ
    rename_i i m hw
    split at happ <;> try exact Option.noConfusion happ
    rename_i r hr
    split at happ <;> try exact Option.noConfusion happ
    obtain rfl := Option.some.inj happ
    have hilt : i < s.regs.length := (List.getElem?_eq_some_iff.mp hr).1
    refine dinv_aux s _ rfl rfl (fun j => rfl) ?_ ?_ ⟨h1, h2, h3, h4⟩
    · intro j
      exact countP_set_engaged j s.workers w _ _ hw (by simp [engagedWith])
    · intro w2 hw2 j hj
      rcases List.mem_or_eq_of_mem_set hw2 with hmem | rfl
      · exact h1 w2 hmem j hj
      · have hij : i = j := by simpa [engagedWith] using hj
        exact hij ▸ hilt
  | raiseCb w =>
    simp only [applyLabel] at happ
    split at happ <;> try exact Option.noConfusion happ
    · rename_i i m hw
      obtain rfl := Option.some.inj happ
      have hmemw : WPhase.gotMsg i m ∈ s.workers := List.getElem?_mem hw
      have hilt : i < s.regs.length := h1 _ hmemw i (by simp [engagedWith])
      refine dinv_aux s _ rfl rfl (fun j => rfl) ?_ ?_ ⟨h1, h2, h3, h4⟩
      · intro j
        exact countP_set_engaged j s.workers w _ _ hw (by simp [engagedWith])
      · intro w2 hw2 j hj
        rcases List.mem_or_eq_of_mem_set hw2 with hmem | rfl
        · exact h1 w2 hmem j hj
        · have hij : i = j := by simpa [engagedWith] using hj
          exact hij ▸ hilt
    · rename_i i m hw
      obtain rfl := Option.some.inj happ
      have hmemw : WPhase.delivering i m ∈ s.workers := List.getElem?_mem hw
      have hilt : i < s.regs.length := h1 _ hmemw i (by simp [engagedWith])
      refine dinv_aux s _ rfl rfl (fun j => rfl) ?_ ?_ ⟨h1, h2, h3, h4⟩
      · intro j
        exact countP_set_engaged j s.workers w _ _ hw (by simp [engagedWith])
      · intro w2 hw2 j hj
        rcases List.mem_or_eq_of_mem_set hw2 with hmem | rfl
        · exact h1 w2 hmem j hj
        · have hij : i = j := by simpa [engagedWith] using hj
          exact hij ▸ hilt
  | deliverEnd w =>
    simp only [applyLabel] at happ
    split at happ <;> try exact Option.noConfusion happ
    rename_i i m hw
    obtain rfl := Option.some.inj happ
    have hmemw : WPhase.delivering i m ∈ s.workers := List.getElem?_mem hw
    have hilt : i < s.regs.length := h1 _ hmemw i (by simp [engagedWith])
    refine dinv_aux s _ rfl rfl (fun j => rfl) ?_ ?_ ⟨h1, h2, h3, h4⟩
    · intro j
      exact countP_set_engaged j s.workers w _ _ hw (by simp [engagedWith])
    · intro w2 hw2 j hj
      rcases List.mem_or_eq_of_mem_set hw2 with hmem | rfl
      · exact h1 w2 hmem j hj
      · have hij : i = j := by simpa [engagedWith] using hj
        exact hij ▸ hilt
  | finish w =>
    simp only [applyLabel] at happ
    split at happ <;> try exact Option.noConfusion happ
    rename_i i hw
    split at happ <;> try exact Option.noConfusion happ
    rename_i r hr
    obtain rfl := Option.some.inj happ
    have hilt : i < s.regs.length := (List.getElem?_eq_some_iff.mp hr).1
    have hmemw : WPhase.done i ∈ s.workers := List.getElem?_mem hw
    have hone : s.workers.countP (engagedWith i) = 1 := by
      have hpos : 0 < s.workers.countP (engagedWith i) :=
        List.countP_pos_iff.mpr ⟨.done i, hmemw, by simp [engagedWith]⟩
      have := (h2 i r hr).2
      omega
    refine ⟨?_, ?_, h3, ?_⟩
    · intro w2 hw2 j hj
      show j < (s.regs.set i _).length
      rw [List.length_set]
      rcases List.mem_or_eq_of_mem_set hw2 with hmem | rfl
      · exact h1 w2 hmem j hj
      · exact absurd hj (by simp [engagedWith])
    · intro j r2 hr2
      have hcadd := countP_set_add (engagedWith j) s.workers w (.done i) WPhase.idle hw
      have h0 : (if engagedWith j WPhase.idle = true then 1 else 0) = 0 := by
        simp [engagedWith]
      rw [h0] at hcadd
      by_cases hji : j = i
      · subst hji
        rw [getElem?_set_self_of_some _ _ _ _ hr] at hr2
        obtain rfl := Option.some.inj hr2
        have h1' : (if engagedWith j (WPhase.done j) = true then 1 else 0) = 1 := by
          simp [engagedWith]
        rw [h1'] at hcadd
        constructor
        · constructor
          · intro hfalse
            exact absurd hfalse (by simp)
          · intro hc
            have hc2 : (s.workers.set w WPhase.idle).countP (engagedWith j) = 1 := hc
            omega
        · show (s.workers.set w WPhase.idle).countP (engagedWith j) ≤ 1
          omega
      · have hij : i ≠ j := fun h => hji h.symm
        have h1' : (if engagedWith j (WPhase.done i) = true then 1 else 0) = 0 := by
          simp [engagedWith, hij]
        rw [h1'] at hcadd
        rw [List.getElem?_set_ne hij] at hr2
        obtain ⟨hiff, hle⟩ := h2 j r2 hr2
        have hceq : (s.workers.set w WPhase.idle).countP (engagedWith j)
            = s.workers.countP (engagedWith j) := by omega
        exact ⟨by rw [hceq]; exact hiff, by rw [hceq]; exact hle⟩
    · intro j hj
      show j < (s.regs.set i _).length
      rw [List.length_set]
      exact h4 j hj
  | unregCall recv =>
    simp only [applyLabel] at happ
    split at happ <;> try exact Option.noConfusion happ
    obtain rfl := Option.some.inj happ
    refine ⟨h1, h2, h3.filter _, ?_⟩
    intro i hi
    exact h4 i (List.mem_of_mem_filter hi)
  | unregReturn =>
    simp only [applyLabel] at happ
    split at happ <;> try exact Option.noConfusion happ
    · obtain rfl := Option.some.inj happ
      exact ⟨h1, h2, h3, h4⟩
    · split at happ <;> try exact Option.noConfusion happ
      split at happ <;> try exact Option.noConfusion happ
      obtain rfl := Option.some.inj happ
      exact ⟨h1, h2, h3, h4⟩

/-- The structural invariant holds along any run. -/
theorem dinv_run (filt : Nat → Msg → Bool) :
    ∀ (ls : List PoolLabel) (s s2 : PoolState),
      DInv s → runLabels filt s ls = some s2 → DInv s2 := by
  intro ls
  induction ls with
  | nil =>
    intro s s2 hinv hrun
    obtain rfl := Option.some.inj hrun
    exact hinv
  | cons l rest ih =>
    intro s s2 hinv hrun
    simp only [runLabels] at hrun
    cases happ : applyLabel filt l s with
    | none => rw [happ] at hrun; exact Option.noConfusion hrun
    | some smid =>
      rw [happ] at hrun
      exact ih smid s2 (dinv_step filt l s smid hinv happ) hrun

/-- The structural invariant holds in every fresh state. -/
theorem dinv_init (s : PoolState) (hinit : InitState s) : DInv s := by
  obtain ⟨hregs, hworkers, _, _, hnd, hbound⟩ := hinit
  refine ⟨?_, ?_, hnd, hbound⟩
  · intro w hw i hi
    rw [hworkers w hw] at hi
    exact absurd hi (by simp [engagedWith])
  · intro i r hr
    have hz : s.workers.countP (engagedWith i) = 0 := by
      rw [List.countP_eq_zero]
      intro w hw
      rw [hworkers w hw]
      simp [engagedWith]
    have hpf := (hregs r (List.getElem?_mem hr)).2.1
    rw [hz, hpf]
    constructor
    · constructor
      · intro hfalse
        exact absurd hfalse (by simp)
      · intro hc
        exact absurd hc (by simp)
    · omega

theorem pendingMsg_engaged (i : Nat) : ∀ x, pendingMsg i x ≠ none → engagedWith i x = true := by
  intro x hx
  cases x with
  | gotMsg j m =>
    simp only [pendingMsg] at hx
    by_cases hj : j = i
    · simp [engagedWith, hj]
    · rw [if_neg hj] at hx
      exact absurd rfl hx
  | idle => exact absurd rfl hx
  | claimed j => exact absurd rfl hx
  | delivering j m => exact absurd rfl hx
  | done j => exact absurd rfl hx
  | dead j => exact absurd rfl hx

/-- Steps that keep the registration's entry (up to its processing
flag), the accepted pending messages and the pushed list preserve the
ordering invariant. -/
theorem oinv_aux (filt : Nat → Msg → Bool) (recv i : Nat) (s s2 : PoolState)
    (hmem2 : i ∈ s2.registered)
    (hreg : ∀ r, s.regs[i]? = some r → ∃ r2, s2.regs[i]? = some r2 ∧
        r2.receiver = r.receiver ∧ r2.queue = r.queue ∧ r2.delivered = r.delivered)
    (hpend : (pendingFor s2 i).filter (filt recv) = (pendingFor s i).filter (filt recv))
    (hpush : s2.pushed = s.pushed)
    (hoinv : OInv filt recv i s) : OInv filt recv i s2 := by
  obtain ⟨hmem, r, hr, hrecv, heq⟩ := hoinv
  obtain ⟨r2, hr2, hrc, hq, hd⟩ := hreg r hr
  refine ⟨hmem2, r2, hr2, by rw [hrc, hrecv], ?_⟩
  rw [hd, hq, hpend, hpush]
  exact heq

/-- Any step other than a callback failure touching this registration
and an unregister call for this receiver preserves the ordering
invariant (given the structural invariant). -/
theorem oinv_step (filt : Nat → Msg → Bool) (recv i : Nat) (l : PoolLabel) (s s2 : PoolState)
    (hdinv : DInv s) (hoinv : OInv filt recv i s)
    (hnoraise : ∀ w, l ≠ PoolLabel.raiseCb w)
    (hnounreg : l ≠ PoolLabel.unregCall recv)
    (happ : applyLabel filt l s = some s2) :
    OInv filt recv i s2 := by
  obtain ⟨hd1, hd2, hd3, hd4⟩ := hdinv
  obtain ⟨hmem, r, hr, hrecv, heq⟩ := hoinv
  cases l with
  | push m =>
    simp only [applyLabel] at happ
    obtain rfl := Option.some.inj happ
    refine ⟨hmem, { r with queue := r.queue ++ [m] }, ?_, hrecv, ?_⟩
    · show (pushToQueues m s.registered 0 s.regs)[i]? = _
      rw [pushToQueues_getElem, hr]
      simp [hmem]
    · show r.delivered ++ (pendingFor s i).filter (filt recv)
          ++ (r.queue ++ [m]).filter (filt recv) = (s.pushed ++ [m]).filter (filt recv)
      rw [List.filter_append, List.filter_append, ← heq]
      simp [List.append_assoc]
  | claim w j =>
    simp only [applyLabel] at happ
    split at happ <;> try exact Option.noConfusion happ
    rename_i rj hw hrj
    split at happ <;> try exact Option.noConfusion happ
    obtain rfl := Option.some.inj happ
    refine oinv_aux filt recv i s _ hmem ?_ ?_ rfl ⟨hmem, r, hr, hrecv, heq⟩
    · intro r0 hr0
      by_cases hji : j = i
      · subst hji
        refine ⟨{ rj with processing := true }, getElem?_set_self_of_some _ _ _ _ hrj, ?_⟩
        rw [hrj] at hr0
        obtain rfl := Option.some.inj hr0
        exact ⟨rfl, rfl, rfl⟩
      · exact ⟨r0, by rw [List.getElem?_set_ne hji]; exact hr0, rfl, rfl, rfl⟩
    · show ((s.workers.set w (WPhase.claimed j)).filterMap (pendingMsg i)).filter (filt recv)
          = ((s.workers.filterMap (pendingMsg i))).filter (filt recv)
      rw [filterMap_set_congr (pendingMsg i) s.workers w WPhase.idle (.claimed j) hw rfl]
  | pop w =>
    simp only [applyLabel] at happ
    split at happ <;> try exact Option.noConfusion happ
    rename_i j hw
    split at happ <;> try exact Option.noConfusion happ
    rename_i rj hrj
    split at happ <;> try exact Option.noConfusion happ
    rename_i m rest hq
    obtain rfl := Option.some.inj happ
    by_cases hji : j = i
    · subst hji
      rw [hr] at hrj
      obtain rfl := Option.some.inj hrj
      have hcount1 : s.workers.countP (engagedWith j) ≤ 1 := (hd2 j r hr).2
      have hpbefore : pendingFor s j = [] := by
        unfold pendingFor
        rw [filterMap_of_unique_pos (pendingMsg j) (engagedWith j) (pendingMsg_engaged j)
          s.workers w (.claimed j) hw hcount1 (by simp [engagedWith])]
        rfl
      have hcount2 : (s.workers.set w (.gotMsg j m)).countP (engagedWith j) ≤ 1 := by
        rw [countP_set_engaged j s.workers w _ _ hw (by simp [engagedWith])]
        exact hcount1
      have hpafter : pendingFor { s with
          regs := s.regs.set j { r with queue := rest },
          workers := s.workers.set w (.gotMsg j m) } j = [m] := by
        unfold pendingFor
        rw [filterMap_of_unique_pos (pendingMsg j) (engagedWith j) (pendingMsg_engaged j)
          (s.workers.set w (.gotMsg j m)) w (.gotMsg j m)
          (getElem?_set_self_of_some _ _ _ _ hw) hcount2 (by simp [engagedWith])]
        simp [pendingMsg]
      refine ⟨hmem, { r with queue := rest }, getElem?_set_self_of_some _ _ _ _ hr, hrecv, ?_⟩
      rw [hpafter]
      rw [hpbefore] at heq
      rw [hq] at heq
      rw [List.filter_cons] at heq
      simp only [List.filter_nil, List.nil_append, List.append_nil] at heq ⊢
      by_cases hfm : filt recv m
      · rw [if_pos hfm] at heq
        simp only [List.filter_cons, hfm, if_pos]
        rw [← heq]
        simp [List.append_assoc]
      · rw [if_neg hfm] at heq
        simp only [List.filter_cons, hfm]
        simpa using heq
    · refine oinv_aux filt recv i s _ hmem ?_ ?_ rfl ⟨hmem, r, hr, hrecv, heq⟩
      · intro r0 hr0
        exact ⟨r0, by rw [List.getElem?_set_ne hji]; exact hr0, rfl, rfl, rfl⟩
      · show ((s.workers.set w (WPhase.gotMsg j m)).filterMap (pendingMsg i)).filter (filt recv)
            = ((s.workers.filterMap (pendingMsg i))).filter (filt recv)
        rw [filterMap_set_congr (pendingMsg i) s.workers w (.claimed j) (.gotMsg j m) hw
          (by simp [pendingMsg, hji])]
  | filterAccept w =>
    simp only [applyLabel] at happ
    split at happ <;> try exact Option.noConfusion happ
    rename_i j m hw
    split at happ <;> try exact Option.noConfusion happ
    rename_i rj hrj
    split at happ <;> try exact Option.noConfusion happ
    rename_i hfilt
    obtain rfl := Option.some.inj happ
    by_cases hji : j = i
    · subst hji
      rw [hr] at hrj
      obtain rfl := Option.some.inj hrj
      have hcount1 : s.workers.countP (engagedWith j) ≤ 1 := (hd2 j r hr).2
      have hpbefore : pendingFor s j = [m] := by
        unfold pendingFor
        rw [filterMap_of_unique_pos (pendingMsg j) (engagedWith j) (pendingMsg_engaged j)
          s.workers w (.gotMsg j m) hw hcount1 (by simp [engagedWith])]
        simp [pendingMsg]
      have hcount2 : (s.workers.set w (.delivering j m)).countP (engagedWith j) ≤ 1 := by
        rw [countP_set_engaged j s.workers w _ _ hw (by simp [engagedWith])]
        exact hcount1
      have hpafter : pendingFor { s with
          regs := s.regs.set j { r with delivered := r.delivered ++ [m] },
          workers := s.workers.set w (.delivering j m) } j = [] := by
        unfold pendingFor
        rw [filterMap_of_unique_pos (pendingMsg j) (engagedWith j) (pendingMsg_engaged j)
          (s.workers.set w (.delivering j m)) w (.delivering j m)
          (getElem?_set_self_of_some _ _ _ _ hw) hcount2 (by simp [engagedWith])]
        rfl
      refine ⟨hmem, { r with delivered := r.delivered ++ [m] },
        getElem?_set_self_of_some _ _ _ _ hr, hrecv, ?_⟩
      rw [hpafter]
      rw [hpbefore] at heq
      rw [hrecv] at hfilt
      simp only [List.filter_cons, hfilt, if_pos, List.filter_nil, List.nil_append] at heq ⊢
      rw [← heq]
      simp [List.append_assoc]
    · refine oinv_aux filt recv i s _ hmem ?_ ?_ rfl ⟨hmem, r, hr, hrecv, heq⟩
      · intro r0 hr0
        exact ⟨r0, by rw [List.getElem?_set_ne hji]; exact hr0, rfl, rfl, rfl⟩
      · show ((s.workers.set w (WPhase.delivering j m)).filterMap (pendingMsg i)).filter (filt recv)
            = ((s.workers.filterMap (pendingMsg i))).filter (filt recv)
        rw [filterMap_set_congr (pendingMsg i) s.workers w (.gotMsg j m) (.delivering j m) hw
          (by simp [pendingMsg, hji])]
  | filterReject w =>
    simp only [applyLabel] at happ
    split at happ <;> try exact Option.noConfusion happ
    rename_i j m hw
    split at happ <;> try exact Option.noConfusion happ
    rename_i rj hrj
    split at happ <;> try exact Option.noConfusion happ
    rename_i hfilt
    obtain rfl := Option.some.inj happ
    refine oinv_aux filt recv i s _ hmem
      (fun r0 hr0 => ⟨r0, hr0, rfl, rfl, rfl⟩) ?_ rfl ⟨hmem, r, hr, hrecv, heq⟩
    by_cases hji : j = i
    · subst hji
      rw [hr] at hrj
      obtain rfl := Option.some.inj hrj
      have hcount1 : s.workers.countP (engagedWith j) ≤ 1 := (hd2 j r hr).2
      have hpbefore : pendingFor s j = [m] := by
        unfold pendingFor
        rw [filterMap_of_unique_pos (pendingMsg j) (engagedWith j) (pendingMsg_engaged j)
          s.workers w (.gotMsg j m) hw hcount1 (by simp [engagedWith])]
        simp [pendingMsg]
      have hcount2 : (s.workers.set w (.done j)).countP (engagedWith j) ≤ 1 := by
        rw [countP_set_engaged j s.workers w _ _ hw (by simp [engagedWith])]
        exact hcount1
      have hpafter : pendingFor { s with workers := s.workers.set w (.done j) } j = [] := by
        unfold pendingFor
        rw [filterMap_of_unique_pos (pendingMsg j) (engagedWith j) (pendingMsg_engaged j)
          (s.workers.set w (.done j)) w (.done j)
          (getElem?_set_self_of_some _ _ _ _ hw) hcount2 (by simp [engagedWith])]
        rfl
      show (pendingFor { s with workers := s.workers.set w (.done j) } j).filter (filt recv)
          = (pendingFor s j).filter (filt recv)
      rw [hpafter, hpbefore]
      rw [hrecv] at hfilt
      simp [List.filter_cons, hfilt]
    · show ((s.workers.set w (WPhase.done j)).filterMap (pendingMsg i)).filter (filt recv)
          = ((s.workers.filterMap (pendingMsg i))).filter (filt recv)
      rw [filterMap_set_congr (pendingMsg i) s.workers w (.gotMsg j m) (.done j) hw
        (by simp [pendingMsg, hji])]
  | raiseCb w => exact absurd rfl (hnoraise w)
  | deliverEnd w =>
    simp only [applyLabel] at happ
    split at happ <;> try exact Option.noConfusion happ
    rename_i j m hw
    obtain rfl := Option.some.inj happ
    refine oinv_aux filt recv i s _ hmem
      (fun r0 hr0 => ⟨r0, hr0, rfl, rfl, rfl⟩) ?_ rfl ⟨hmem, r, hr, hrecv, heq⟩
    show ((s.workers.set w (WPhase.done j)).filterMap (pendingMsg i)).filter (filt recv)
        = ((s.workers.filterMap (pendingMsg i))).filter (filt recv)
    rw [filterMap_set_congr (pendingMsg i) s.workers w (.delivering j m) (.done j) hw rfl]
  | finish w =>
    simp only [applyLabel] at happ
    split at happ <;> try exact Option.noConfusion happ
    rename_i j hw
    split at happ <;> try exact Option.noConfusion happ
    rename_i rj hrj
    obtain rfl := Option.some.inj happ
    refine oinv_aux filt recv i s _ hmem ?_ ?_ rfl ⟨hmem, r, hr, hrecv, heq⟩
    · intro r0 hr0
      by_cases hji : j = i
      · subst hji
        refine ⟨{ rj with processing := false }, getElem?_set_self_of_some _ _ _ _ hrj, ?_⟩
        rw [hrj] at hr0
        obtain rfl := Option.some.inj hr0
        exact ⟨rfl, rfl, rfl⟩
      · exact ⟨r0, by rw [List.getElem?_set_ne hji]; exact hr0, rfl, rfl, rfl⟩
    · show ((s.workers.set w WPhase.idle).filterMap (pendingMsg i)).filter (filt recv)
          = ((s.workers.filterMap (pendingMsg i))).filter (filt recv)
      rw [filterMap_set_congr (pendingMsg i) s.workers w (.done j) WPhase.idle hw rfl]
  | unregCall recv2 =>
    simp only [applyLabel] at happ
    split at happ <;> try exact Option.noConfusion happ
    obtain rfl := Option.some.inj happ
    have hrecv2 : recv2 ≠ recv := by
      intro hc
      exact hnounreg (by rw [hc])
    refine oinv_aux filt recv i s _ ?_
      (fun r0 hr0 => ⟨r0, hr0, rfl, rfl, rfl⟩) rfl rfl ⟨hmem, r, hr, hrecv, heq⟩
    show i ∈ s.registered.filter (fun j => !matchesRecv s recv2 j)
    rw [List.mem_filter]
    refine ⟨hmem, ?_⟩
    simp only [matchesRecv, hr, hrecv, Bool.not_eq_true']
    simp only [decide_eq_false_iff_not]
    exact fun hc => hrecv2 hc.symm
  | unregReturn =>
    simp only [applyLabel] at happ
    split at happ <;> try exact Option.noConfusion happ
    · obtain rfl := Option.some.inj happ
      exact ⟨hmem, r, hr, hrecv, heq⟩
    · split at happ <;> try exact Option.noConfusion happ
      split at happ <;> try exact Option.noConfusion happ
      obtain rfl := Option.some.inj happ
      exact ⟨hmem, r, hr, hrecv, heq⟩

/-- The ordering invariant is preserved by any run whose labels include
no callback failure and no unregister call for the receiver. -/
theorem oinv_run (filt : Nat → Msg → Bool) (recv i : Nat) :
    ∀ (ls : List PoolLabel) (s s2 : PoolState),
      DInv s → OInv filt recv i s →
      (∀ l ∈ ls, (∀ w, l ≠ PoolLabel.raiseCb w) ∧ l ≠ PoolLabel.unregCall recv) →
      runLabels filt s ls = some s2 → OInv filt recv i s2 := by
  intro ls
  induction ls with
  | nil =>
    intro s s2 _ ho _ hrun
    obtain rfl := Option.some.inj hrun
    exact ho
  | cons l rest ih =>
    intro s s2 hd ho hsafe hrun
    simp only [runLabels] at hrun
    cases happ : applyLabel filt l s with
    | none => rw [happ] at hrun; exact Option.noConfusion hrun
    | some smid =>
      rw [happ] at hrun
      have hl := hsafe l (List.mem_cons_self l rest)
      exact ih smid s2 (dinv_step filt l s smid hd happ)
        (oinv_step filt recv i l s smid hd ho hl.1 hl.2 happ)
        (fun l2 hl2 => hsafe l2 (List.mem_cons_of_mem l hl2)) hrun

/-- The ordering invariant holds in a fresh pool for every registered
entry of the receiver. -/
theorem oinv_init (filt : Nat → Msg → Bool) (recv i : Nat) (s : PoolState)
    (hinit : InitState s) (hmem : i ∈ s.registered) (r : Reg)
    (hr : s.regs[i]? = some r) (hrecv : r.receiver = recv) :
    OInv filt recv i s := by
  obtain ⟨hregs, hworkers, hpush, -, -, -⟩ := hinit
  obtain ⟨hq, -, hd⟩ := hregs r (List.getElem?_mem hr)
  refine ⟨hmem, r, hr, hrecv, ?_⟩
  have hpend : pendingFor s i = [] := by
    unfold pendingFor
    rw [List.filterMap_eq_nil_iff]
    intro w hw
    rw [hworkers w hw]
    rfl
  rw [hq, hd, hpend, hpush]
  rfl

/-- C1: for every receiver registered (once) with a fresh
`OrderedQueueDispatcherPool` and every run in which no callback raises
and the receiver is not unregistered, at most one worker is engaged
with the registration at any time (so no two delivery invocations for
it overlap), and the delivery functions invoked so far, followed by the
accepted in-flight message and the accepted part of the queue, are
exactly the filter-accepted pushed messages in push order — so
deliveries happen for exactly the accepted pushed messages, in push
order. -/
theorem pool_ordered_exclusive_delivery
    (filt : Nat → Msg → Bool) (recv i : Nat) (r : Reg)
    (ls : List PoolLabel) (s s2 : PoolState)
    (hinit : InitState s) (hmem : i ∈ s.registered)
    (hr : s.regs[i]? = some r) (hrecv : r.receiver = recv)
    (hsafe : ∀ l ∈ ls, isRaiseCb l = false ∧ isUnregCallOf recv l = false)
    (hrun : runLabels filt s ls = some s2) :
    s2.workers.countP (engagedWith i) ≤ 1 ∧
    ∃ r2, s2.regs[i]? = some r2 ∧ r2.receiver = recv ∧
      r2.delivered ++ (pendingFor s2 i).filter (filt recv) ++ r2.queue.filter (filt recv)
        = s2.pushed.filter (filt recv) := by
  have hd0 : DInv s := dinv_init s hinit
  have hsafe2 : ∀ l ∈ ls, (∀ w, l ≠ PoolLabel.raiseCb w) ∧ l ≠ PoolLabel.unregCall recv := by
    intro l hl
    obtain ⟨hb1, hb2⟩ := hsafe l hl
    refine ⟨fun w hw => ?_, fun hu => ?_⟩
    · rw [hw] at hb1
      simp [isRaiseCb] at hb1
    · rw [hu] at hb2
      simp [isUnregCallOf] at hb2
  have ho2 : OInv filt recv i s2 :=
    oinv_run filt recv i ls s s2 hd0 (oinv_init filt recv i s hinit hmem r hr hrecv) hsafe2 hrun
  have hd2 : DInv s2 := dinv_run filt ls s s2 hd0 hrun
  obtain ⟨hmem2, r2, hr2, hrecv2, heq⟩ := ho2
  exact ⟨(hd2.2.1 i r2 hr2).2, r2, hr2, hrecv2, heq⟩

/-- Witness for C1 at a concrete run: receiver 7 registered once, two
messages pushed and both delivered in order by a single worker. -/
theorem pool_ordered_exclusive_delivery_witness :
    c1final.workers.countP (engagedWith 0) ≤ 1 ∧
    runLabels cFiltTrue c1init c1trace = some c1final :=
  ⟨(pool_ordered_exclusive_delivery cFiltTrue 7 0 ⟨7, [], false, []⟩ c1trace c1init c1final
      (by refine ⟨?_, ?_, ?_, ?_, ?_, ?_⟩ <;> decide)
      (by decide) (by decide) rfl (by decide) rfl).1, rfl⟩

/-- A pending unregister call for registration `i` of a removed
receiver persists across every step other than `unregReturn`, and the
removed registration never re-enters the registered list. -/
theorem unreg_persist_step (filt : Nat → Msg → Bool) (i : Nat) (l : PoolLabel)
    (t t2 : PoolState) (hl : l ≠ PoolLabel.unregReturn)
    (hu : t.unreg = some (some i)) (hni : i ∉ t.registered)
    (happ : applyLabel filt l t = some t2) :
    t2.unreg = some (some i) ∧ i ∉ t2.registered := by
  cases l with
  | push m =>
    simp only [applyLabel] at happ
    obtain rfl := Option.some.inj happ
    exact ⟨hu, hni⟩
  | claim w j =>
    simp only [applyLabel] at happ
    split at happ <;> try exact Option.noConfusion happ
    split at happ <;> try exact Option.noConfusion happ
    obtain rfl := Option.some.inj happ
    exact ⟨hu, hni⟩
  | pop w =>
    simp only [applyLabel] at happ
    split at happ <;> try exact Option.noConfusion happ
    split at happ <;> try exact Option.noConfusion happ
    split at happ <;> try exact Option.noConfusion happ
    obtain rfl := Option.some.inj happ
    exact ⟨hu, hni⟩
  | filterAccept w =>
    simp only [applyLabel] at happ
    split at happ <;> try exact Option.noConfusion happ
    split at happ <;> try exact Option.noConfusion happ
    split at happ <;> try exact Option.noConfusion happ
    obtain rfl := Option.some.inj happ
    exact ⟨hu, hni⟩
  | filterReject w =>
    simp only [applyLabel] at happ
    split at happ <;> try exact Option.noConfusion happ
    split at happ <;> try exact Option.noConfusion happ
    split at happ <;> try exact Option.noConfusion happ
    obtain rfl := Option.some.inj happ
    exact ⟨hu, hni⟩
  | raiseCb w =>
    simp only [applyLabel] at happ
    split at happ <;> try exact Option.noConfusion happ
    all_goals obtain rfl := Option.some.inj happ
    all_goals exact ⟨hu, hni⟩
  | deliverEnd w =>
    simp only [applyLabel] at happ
    split at happ <;> try exact Option.noConfusion happ
    obtain rfl := Option.some.inj happ
    exact ⟨hu, hni⟩
  | finish w =>
    simp only [applyLabel] at happ
    split at happ <;> try exact Option.noConfusion happ
    split at happ <;> try exact Option.noConfusion happ
    obtain rfl := Option.some.inj happ
    exact ⟨hu, hni⟩
  | unregCall recv2 =>
    simp only [applyLabel] at happ
    split at happ <;> try exact Option.noConfusion happ
    rename_i hequ
    rw [hu] at hequ
    exact Option.noConfusion hequ
  | unregReturn =>
    exact absurd rfl hl

/-- Run form of `unreg_persist_step`. -/
theorem unreg_persist_run (filt : Nat → Msg → Bool) (i : Nat) :
    ∀ (ls : List PoolLabel) (t t2 : PoolState),
      PoolLabel.unregReturn ∉ ls →
      t.unreg = some (some i) → i ∉ t.registered →
      runLabels filt t ls = some t2 →
      t2.unreg = some (some i) ∧ i ∉ t2.registered := by
  intro ls
  induction ls with
  | nil =>
    intro t t2 _ hu hni hrun
    obtain rfl := Option.some.inj hrun
    exact ⟨hu, hni⟩
  | cons l rest ih =>
    intro t t2 hmem hu hni hrun
    simp only [runLabels] at hrun
    cases happ : applyLabel filt l t with
    | none => rw [happ] at hrun; exact Option.noConfusion hrun
    | some tmid =>
      rw [happ] at hrun
      have hl : l ≠ PoolLabel.unregReturn := fun h => hmem (h ▸ List.mem_cons_self l rest)
      obtain ⟨hu2, hni2⟩ := unreg_persist_step filt i l t tmid hl hu hni happ
      exact ih tmid t2 (fun h => hmem (List.mem_cons_of_mem l h)) hu2 hni2 hrun

/-- C3: counterexample — with receiver 5 registered twice,
`unregister_receiver(5)` removes both registrations but its loop keeps
only the LAST matching registration in `removed` and waits only on
that one; it returns while a worker is still inside the delivery
callback for receiver 5 through the first registration, so a delivery
callback for the receiver executes (and completes) after the call
returned. -/
theorem unregister_returns_during_delivery :
    InitState c3init ∧
    matchesRecv c3init 5 0 = true ∧
    matchesRecv c3init 5 1 = true ∧
    runLabels cFiltTrue c3init c3trace = some c3state ∧
    c3state.unreg = none ∧
    c3state.workers = [WPhase.delivering 0 9] ∧
    c3state.regs[0]?.map Reg.receiver = some 5 ∧
    (applyLabel cFiltTrue (PoolLabel.deliverEnd 0) c3state).isSome = true := by
  refine ⟨⟨?_, ?_, ?_, ?_, ?_, ?_⟩, ?_, ?_, ?_, ?_, ?_, ?_, ?_⟩ <;> decide

/-- When exactly one registration of the receiver exists at call time,
`unregister_receiver` removes it and, once it returns, no worker is
engaged with that registration any more — the wait on the removed
registration's processing flag really covers the one in-progress
delivery. -/
theorem unreg_sole_wait_aux
    (filt : Nat → Msg → Bool) (recv i : Nat) (s s1 smid s2 : PoolState)
    (ls : List PoolLabel)
    (hd : DInv s)
    (huniq : s.registered.filter (matchesRecv s recv) = [i])
    (hcall : applyLabel filt (PoolLabel.unregCall recv) s = some s1)
    (hnoret : PoolLabel.unregReturn ∉ ls)
    (hmid : runLabels filt s1 ls = some smid)
    (hret : applyLabel filt PoolLabel.unregReturn smid = some s2) :
    s2.workers.countP (engagedWith i) = 0 ∧ i ∉ s2.registered := by
  have hd1 : DInv s1 := dinv_step filt (PoolLabel.unregCall recv) s s1 hd hcall
  have hmemf : i ∈ s.registered.filter (matchesRecv s recv) := by
    rw [huniq]
    exact List.Mem.head _
  have hmatch : matchesRecv s recv i = true := (List.mem_filter.mp hmemf).2
  simp only [applyLabel] at hcall
  split at hcall <;> try exact Option.noConfusion hcall
  obtain rfl := Option.some.inj hcall
  have hu1 : some ((s.registered.filter (matchesRecv s recv)).getLast?) = some (some i) := by
    rw [huniq]
    simp
  have hni1 : i ∉ s.registered.filter (fun j => !matchesRecv s recv j) := by
    intro hmem2
    have hneg := (List.mem_filter.mp hmem2).2
    rw [hmatch] at hneg
    exact Bool.noConfusion hneg
  obtain ⟨humid, hnimid⟩ := unreg_persist_run filt i ls _ smid hnoret hu1 hni1 hmid
  have hdmid : DInv smid := dinv_run filt ls _ smid hd1 hmid
  simp only [applyLabel] at hret
  split at hret <;> try exact Option.noConfusion hret
  · rename_i hequ
    rw [humid] at hequ
    exact Option.noConfusion (Option.some.inj hequ)
  · rename_i i2 hequ
    rw [humid] at hequ
    obtain rfl := Option.some.inj (Option.some.inj hequ)
    split at hret <;> try exact Option.noConfusion hret
    rename_i rr hregs
    split at hret <;> try exact Option.noConfusion hret
    rename_i hproc
    obtain rfl := Option.some.inj hret
    refine ⟨?_, hnimid⟩
    show smid.workers.countP (engagedWith i) = 0
    obtain ⟨hiff, hle⟩ := hdmid.2.1 i rr hregs
    have hne1 : ¬ smid.workers.countP (engagedWith i) = 1 := fun hc => hproc (hiff.mpr hc)
    omega

/-- C3 (amended): `unregister_receiver(recv)` removes exactly the
matching registrations from `self._receivers`, records the LAST
matching registration in its `removed` variable, and returns
`not (removed is None)` — true iff at least one registration was
removed; it waits only on that last registration's processing flag, so
when exactly one registration of the receiver exists at call time the
call blocks until the in-progress delivery (if any) completes and,
once it returns, no worker is engaged with that registration any
more. -/
theorem unregister_removes_returns_and_waits :
    (∀ (filt : Nat → Msg → Bool) (recv : Nat) (s s1 : PoolState),
       applyLabel filt (PoolLabel.unregCall recv) s = some s1 →
       s1.registered = s.registered.filter (fun j => !matchesRecv s recv j) ∧
       s1.unreg = some ((s.registered.filter (matchesRecv s recv)).getLast?) ∧
       (unregResult ((s.registered.filter (matchesRecv s recv)).getLast?) = true ↔
         s.registered.filter (matchesRecv s recv) ≠ [])) ∧
    (∀ (filt : Nat → Msg → Bool) (recv i : Nat) (s s1 smid s2 : PoolState)
       (ls : List PoolLabel),
       DInv s →
       s.registered.filter (matchesRecv s recv) = [i] →
       applyLabel filt (PoolLabel.unregCall recv) s = some s1 →
       PoolLabel.unregReturn ∉ ls →
       runLabels filt s1 ls = some smid →
       applyLabel filt PoolLabel.unregReturn smid = some s2 →
       s2.workers.countP (engagedWith i) = 0 ∧ i ∉ s2.registered) := by
  constructor
  · intro filt recv s s1 hcall
    simp only [applyLabel] at hcall
    split at hcall <;> try exact Option.noConfusion hcall
    obtain rfl := Option.some.inj hcall
    refine ⟨rfl, rfl, ?_⟩
    unfold unregResult
    rw [List.getLast?_isSome]
  · intro filt recv i s s1 smid s2 ls hd huniq hcall hnoret hmid hret
    exact unreg_sole_wait_aux filt recv i s s1 smid s2 ls hd huniq hcall hnoret hmid hret

/-- Witness for the amended C3 at a concrete run: receiver 7 registered
exactly once (next to receiver 8), one full delivery, then
`unregister_receiver(7)` is called, returns true, and afterwards no
worker is engaged with the removed registration. -/
theorem unregister_removes_returns_and_waits_witness :
    c3ws1.registered = [1] ∧
    unregResult ((c3wstate.registered.filter (matchesRecv c3wstate 7)).getLast?) = true ∧
    c3ws2.workers.countP (engagedWith 0) = 0 ∧ 0 ∉ c3ws2.registered := by
  obtain ⟨hA, hB⟩ := unregister_removes_returns_and_waits
  obtain ⟨hreg, -, hiff⟩ := hA cFiltTrue 7 c3wstate c3ws1 rfl
  obtain ⟨h1, h2⟩ := hB cFiltTrue 7 0 c3wstate c3ws1 c3ws1 c3ws2 []
    (dinv_run cFiltTrue c3wtrace c3winit c3wstate
      (dinv_init c3winit (by refine ⟨?_, ?_, ?_, ?_, ?_, ?_⟩ <;> decide)) rfl)
    (by decide) rfl (by decide) rfl rfl
  exact ⟨by rw [hreg]; decide, hiff.mpr (by decide), h1, h2⟩

/-- A dead worker (its callback raised, so `_finished_work` never ran)
stays dead forever, and the registration it was engaged with keeps its
processing flag and its delivered list unchanged across every step. -/
theorem dead_persist_step (filt : Nat → Msg → Bool) (i : Nat) (l : PoolLabel)
    (t t2 : PoolState) (hw : t.workers = [WPhase.dead i])
    (happ : applyLabel filt l t = some t2) :
    t2.workers = [WPhase.dead i] ∧
    t2.regs[i]?.map (fun r => (r.processing, r.delivered))
      = t.regs[i]?.map (fun r => (r.processing, r.delivered)) := by
  have hwp : ∀ n : Nat, t.workers[n]? = none ∨ t.workers[n]? = some (WPhase.dead i) := by
    intro n
    rw [hw]
    rcases n with _ | n
    · exact Or.inr rfl
    · exact Or.inl rfl
  cases l with
  | push m =>
    simp only [applyLabel] at happ
    obtain rfl := Option.some.inj happ
    refine ⟨hw, ?_⟩
    show ((pushToQueues m t.registered 0 t.regs)[i]?).map (fun r => (r.processing, r.delivered))
        = (t.regs[i]?).map (fun r => (r.processing, r.delivered))
    rw [pushToQueues_getElem]
    cases hr : t.regs[i]? with
    | none => rfl
    | some r =>
      simp only [Option.map_some, Nat.zero_add]
      by_cases hj : i ∈ t.registered <;> simp [hj]
  | claim w j =>
    simp only [applyLabel] at happ
    split at happ <;> try exact Option.noConfusion happ
    rename_i r hweq hrj
    rcases hwp w with h | h <;> rw [h] at hweq <;> simp at hweq
  | pop w =>
    simp only [applyLabel] at happ
    split at happ <;> try exact Option.noConfusion happ
    rename_i j hweq
    rcases hwp w with h | h <;> rw [h] at hweq <;> simp at hweq
  | filterAccept w =>
    simp only [applyLabel] at happ
    split at happ <;> try exact Option.noConfusion happ
    rename_i j m hweq
    rcases hwp w with h | h <;> rw [h] at hweq <;> simp at hweq
  | filterReject w =>
    simp only [applyLabel] at happ
    split at happ <;> try exact Option.noConfusion happ
    rename_i j m hweq
    rcases hwp w with h | h <;> rw [h] at hweq <;> simp at hweq
  | raiseCb w =>
    simp only [applyLabel] at happ
    split at happ <;> try exact Option.noConfusion happ
    all_goals rename_i j m hweq
    all_goals rcases hwp w with h | h <;> rw [h] at hweq <;> simp at hweq
  | deliverEnd w =>
    simp only [applyLabel] at happ
    split at happ <;> try exact Option.noConfusion happ
    rename_i j m hweq
    rcases hwp w with h | h <;> rw [h] at hweq <;> simp at hweq
  | finish w =>
    simp only [applyLabel] at happ
    split at happ <;> try exact Option.noConfusion happ
    rename_i j hweq
    rcases hwp w with h | h <;> rw [h] at hweq <;> simp at hweq
  | unregCall recv =>
    simp only [applyLabel] at happ
    split at happ <;> try exact Option.noConfusion happ
    obtain rfl := Option.some.inj happ
    exact ⟨hw, rfl⟩
  | unregReturn =>
    simp only [applyLabel] at happ
    split at happ <;> try exact Option.noConfusion happ
    · obtain rfl := Option.some.inj happ
      exact ⟨hw, rfl⟩
    · split at happ <;> try exact Option.noConfusion happ
      split at happ <;> try exact Option.noConfusion happ
      obtain rfl := Option.some.inj happ
      exact ⟨hw, rfl⟩

/-- Run form of `dead_persist_step`. -/
theorem dead_persist_run (filt : Nat → Msg → Bool) (i : Nat) :
    ∀ (ls : List PoolLabel) (t t2 : PoolState),
      t.workers = [WPhase.dead i] →
      runLabels filt t ls = some t2 →
      t2.workers = [WPhase.dead i] ∧
      t2.regs[i]?.map (fun r => (r.processing, r.delivered))
        = t.regs[i]?.map (fun r => (r.processing, r.delivered)) := by
  intro ls
  induction ls with
  | nil =>
    intro t t2 hw hrun
    obtain rfl := Option.some.inj hrun
    exact ⟨hw, rfl⟩
  | cons l rest ih =>
    intro t t2 hw hrun
    simp only [runLabels] at hrun
    cases happ : applyLabel filt l t with
    | none => rw [happ] at hrun; exact Option.noConfusion hrun
    | some tmid =>
      rw [happ] at hrun
      obtain ⟨hw2, hmap2⟩ := dead_persist_step filt i l t tmid hw happ
      obtain ⟨hw3, hmap3⟩ := ih tmid t2 hw2 hrun
      exact ⟨hw3, by rw [hmap3, hmap2]⟩

/-- C4: REFUTED (code bug) — `_worker` has no try/finally, so when the
delivery callback raises, `_finished_work` never runs: starting from a
fresh pool with receiver 7 registered once, pushing message 3 and
having the callback raise reaches `c4state`, and in EVERY continuation
of that run the worker stays dead, the registration's processing flag
stays `true` and its delivered list stays `[3]` — the flag is never
cleared and no later message is ever delivered, contradicting the
claim that the registration is un-marked as processing even on
callback failure. -/
theorem worker_exception_leaves_processing_set
    (ls : List PoolLabel) (t : PoolState)
    (hrun : runLabels cFiltTrue c4state ls = some t) :
    runLabels cFiltTrue c4init c4trace = some c4state ∧
    InitState c4init ∧
    t.workers = [WPhase.dead 0] ∧
    t.regs[0]?.map (fun r => (r.processing, r.delivered)) = some (true, [3]) := by
  obtain ⟨hw, hmap⟩ := dead_persist_run cFiltTrue 0 ls c4state t rfl hrun
  refine ⟨rfl, ?_, hw, by rw [hmap]; rfl⟩
  refine ⟨?_, ?_, ?_, ?_, ?_, ?_⟩ <;> decide

/-- Witness for C4 at the empty continuation: immediately after the
raising run, the flag is set and the worker is dead. -/
theorem worker_exception_leaves_processing_set_witness :
    runLabels cFiltTrue c4init c4trace = some c4state ∧
    InitState c4init ∧
    c4state.workers = [WPhase.dead 0] ∧
    c4state.regs[0]?.map (fun r => (r.processing, r.delivered)) = some (true, [3]) :=
  worker_exception_leaves_processing_set [] c4state rfl

end Rsb
